import Mathlib

/-!
Verification development for the `kfm` (Keyence file manager) repository.

The Python source (`src/kfm.py`) is shallowly embedded below:
* filesystem paths are lists of name segments relative to the filesystem root
  (Python uses absolute path strings; joining segments with `/` recovers them),
* the filesystem is an explicit list of entries (directories and files) whose
  list order models the unspecified enumeration order of `pathlib` scans,
* each Python function becomes a Lean function threading the filesystem state
  explicitly and returning an explicit outcome (normal return, caught-and-printed
  error, or propagated exception),
* regular-expression probes and the dynamically built filename pattern of
  `matchImgType` are implemented character by character, following the exact
  backtracking behaviour of `re.search` for these concrete patterns.
-/

namespace Kfm

/-- A filesystem path, as the list of its name segments from the root.
`str(Path)` in the Python source corresponds to joining the segments with `/`. -/
abbrev FPath := List String

/-- The persisted transaction log written by `moveFiles` to `record.json`
(`json.dump({'record_time': ..., 'unmoved_list': ..., 'record': ..., 'new_dirs': ...})`).
Paths are stored structurally; the JSON layer serializes them as strings. -/
structure MoveRecord where
  record_time : String
  unmoved_list : List (FPath × FPath)
  record : List (FPath × FPath)
  new_dirs : List FPath
deriving DecidableEq, Repr

/-- Contents of a regular file: either opaque bytes (identified by a tag, enough
to state content preservation) or the serialized `MoveRecord` document. -/
inductive FileData where
  | blob (id : Nat)
  | recData (r : MoveRecord)
deriving DecidableEq, Repr

/-- One filesystem entry: a directory or a regular file with contents. -/
inductive Entry where
  | dir (p : FPath)
  | file (p : FPath) (d : FileData)
deriving DecidableEq, Repr

/-- The filesystem: a list of entries.  List order models the (unspecified)
enumeration order that `pathlib`'s `glob`/`rglob` walk the directory tree in. -/
abbrev FS := List Entry

/-- The path of an entry. -/
def Entry.path : Entry → FPath
  | .dir p => p
  | .file p _ => p

/-- Whether an entry is a directory. -/
def Entry.isDir : Entry → Bool
  | .dir _ => true
  | .file _ _ => false

/-- `p.exists()`: some entry (file or directory) has exactly this path. -/
def existsP (fs : FS) (p : FPath) : Bool :=
  fs.any (fun e => e.path = p)

/-- Whether a directory entry with exactly this path exists. -/
def isDirP (fs : FS) (p : FPath) : Bool :=
  fs.any (fun e => e.path = p ∧ e.isDir)

/-- The contents of the regular file at `p`, if any. -/
def lookupFile (fs : FS) (p : FPath) : Option FileData :=
  fs.findSome? (fun e => match e with
    | .file q d => if q = p then some d else none
    | .dir _ => none)

/-- The entries that are immediate children of directory `p`
(`path.glob('*')` order: filesystem list order). -/
def childEntries (fs : FS) (p : FPath) : List Entry :=
  fs.filter (fun e => e.path.length = p.length + 1 ∧ p.isPrefixOf e.path)

/-- The names (final segments) of the immediate children of `p`. -/
def childNames (fs : FS) (p : FPath) : List String :=
  (childEntries fs p).map (fun e => e.path.getLastD "")

/-- Whether a path lies strictly below `p`. -/
def underP (p q : FPath) : Bool :=
  p.isPrefixOf q ∧ q.length > p.length

/-- Does `suf` occur as a suffix of `cs`? -/
def isSuffixL (suf cs : List Char) : Bool :=
  suf.reverse.isPrefixOf cs.reverse

/-- Does the name match the glob pattern `*.tif`? -/
def nameEndsTif (s : String) : Bool :=
  isSuffixL ['.', 't', 'i', 'f'] s.toList

/-- `path.rglob('*.tif')`, restricted to regular files: every file strictly
below `p` whose name ends in `.tif`, in filesystem enumeration order.
The Python generator walks lazily; the runs considered here are modelled with
a snapshot taken when the iteration starts, which agrees with the generator
whenever directories created during the walk contain no matching files. -/
def rglobTifs (fs : FS) (p : FPath) : List FPath :=
  fs.filterMap (fun e => match e with
    | .file q _ => if underP p q ∧ nameEndsTif (q.getLastD "") then some q else none
    | .dir _ => none)

/-! ### Character-level helpers for the regular expressions of the source -/

/-- `\d` of Python `re` (ASCII digits for the filenames considered). -/
def isDigitChar (c : Char) : Bool := '0' ≤ c ∧ c ≤ '9'

/-- `\w` of Python `re` (ASCII word characters for the filenames considered). -/
def isWordChar (c : Char) : Bool :=
  ('a' ≤ c ∧ c ≤ 'z') ∨ ('A' ≤ c ∧ c ≤ 'Z') ∨ isDigitChar c ∨ c = '_'

/-- Split a character list into its maximal leading digit run and the rest. -/
def digitRunSplit : List Char → List Char × List Char
  | [] => ([], [])
  | c :: cs =>
    if isDigitChar c then
      let (ds, rest) := digitRunSplit cs
      (c :: ds, rest)
    else ([], c :: cs)

theorem digitRunSplit_snd_length (cs : List Char) :
    (digitRunSplit cs).2.length ≤ cs.length := by
  induction cs with
  | nil => simp [digitRunSplit]
  | cons c cs ih =>
    simp only [digitRunSplit]
    by_cases h : isDigitChar c = true
    · simp [h]
      omega
    · simp [h]

/-- Does the list contain `XY` as a (contiguous) substring? Implements the
`*XY*` glob filter of `mapXYtoWell`. -/
def containsXY : List Char → Bool
  | 'X' :: 'Y' :: _ => true
  | _ :: rest => containsXY rest
  | [] => false

/-- `re.search(r'_T(\d+)_', s)` succeeds iff some window `_T<digits>_` with at
least one digit occurs in `s`; equivalently the maximal digit run after some
`_T` is nonempty and followed by `_`. -/
def probeTL : List Char → Bool
  | '_' :: 'T' :: rest =>
    (match digitRunSplit rest with
     | (ds, '_' :: _) => decide (ds ≠ [])
     | _ => false) || probeTL ('T' :: rest)
  | _ :: rest => probeTL rest
  | [] => false

/-- `re.search(r'_Z(\d+)_', s)`, analogously to `probeTL`. -/
def probeZL : List Char → Bool
  | '_' :: 'Z' :: rest =>
    (match digitRunSplit rest with
     | (ds, '_' :: _) => decide (ds ≠ [])
     | _ => false) || probeZL ('Z' :: rest)
  | _ :: rest => probeZL rest
  | [] => false

/-- `re.search(r'_(\d{5})_', s)` succeeds iff some window of the form
`_` + exactly five digits + `_` occurs in `s`. -/
def probeStitchL : List Char → Bool
  | '_' :: rest =>
    (match rest with
     | d1 :: d2 :: d3 :: d4 :: d5 :: '_' :: _ =>
       isDigitChar d1 ∧ isDigitChar d2 ∧ isDigitChar d3 ∧ isDigitChar d4 ∧ isDigitChar d5
     | _ => false) || probeStitchL rest
  | _ :: rest => probeStitchL rest
  | [] => false

/-- The tri-flag image-type descriptor built by `matchImgType`
(`{'isZstack': ..., 'isTimelapse': ..., 'isStitch': ...}`). -/
structure ImgType where
  isZstack : Bool
  isTimelapse : Bool
  isStitch : Bool
deriving DecidableEq, Repr

/-- The exceptions the source can raise.  The first six are the classes defined
in `kfm.py`; the remaining constructors model the built-in Python exceptions
the code can hit (`NameError` from the unbound locals in `matchImgType` when no
image is found, `AttributeError` from `None.group`, `KeyError` from dict lookup,
`IndexError` from `match.group` on a group absent from the pattern,
`FileExistsError` from `mkdir`, and other `OSError`s).  Message strings are not
modelled. -/
inductive Err where
  | incorrectWellSpec
  | wellNotFound
  | incorrectGroupby
  | destExists
  | recordExists
  | recordDoesNotExist
  | nameError
  | attributeError
  | keyError
  | indexError
  | fileExists
  | osError
deriving DecidableEq, Repr

/-- The named groups captured by matching a filename against the pattern that
`matchImgType` builds.  As in the source pattern, `tval` and `zval` include
their leading `T`/`Z` letter (`(?P<T>T{1}\d+)`, `(?P<Z>Z{1}\d+)`), `xy` and
`stitchval` are bare digit strings, and `chval` is the `(?P<CH>.*)` capture. -/
structure MGroups where
  prefixval : String
  tval : Option String
  xy : String
  stitchval : Option String
  zval : Option String
  chval : String
deriving DecidableEq, Repr

/-- Match the part of the pattern following the `(?P<prefix>\w+)` capture, i.e.
`(_T\d+)? _XY\d+ (_\d{5})? (_Z\d+)? _ (.*) .tif` with the optional pieces
present exactly when the corresponding `ImgType` flag is set.  This part of the
pattern is deterministic except for the trailing `(?P<CH>.*).tif`: every digit
run is maximal (the following pattern character is `_`, never a digit), so no
backtracking can arise before `CH`.  Returns the captures without `prefixval`
and `chval`; the remaining characters start at the `CH` capture point (after
its leading `_`). -/
def matchAfterPre (it : ImgType) (cs : List Char) :
    Option ((Option String × String × Option String × Option String) × List Char) := do
  -- optional `_(?P<T>T{1}\d+)`
  let (tv, cs) ←
    if it.isTimelapse then
      match cs with
      | '_' :: 'T' :: rest =>
        let (ds, rest2) := digitRunSplit rest
        if ds.isEmpty then none
        else some (some (String.mk ('T' :: ds)), rest2)
      | _ => none
    else some (none, cs)
  -- `_XY(?P<XY>\d+)`
  let (xyv, cs) ←
    match cs with
    | '_' :: 'X' :: 'Y' :: rest =>
      let (ds, rest2) := digitRunSplit rest
      if ds.isEmpty then none else some (String.mk ds, rest2)
    | _ => none
  -- optional `_(?P<stitch>\d{5})`
  let (sv, cs) ←
    if it.isStitch then
      match cs with
      | '_' :: d1 :: d2 :: d3 :: d4 :: d5 :: rest =>
        if isDigitChar d1 ∧ isDigitChar d2 ∧ isDigitChar d3 ∧ isDigitChar d4 ∧ isDigitChar d5
        then some (some (String.mk [d1, d2, d3, d4, d5]), rest)
        else none
      | _ => none
    else some (none, cs)
  -- optional `_(?P<Z>Z{1}\d+)`
  let (zv, cs) ←
    if it.isZstack then
      match cs with
      | '_' :: 'Z' :: rest =>
        let (ds, rest2) := digitRunSplit rest
        if ds.isEmpty then none else some (some (String.mk ('Z' :: ds)), rest2)
      | _ => none
    else some (none, cs)
  -- the literal `_` before the `CH` capture
  match cs with
  | '_' :: rest => some ((tv, xyv, sv, zv), rest)
  | _ => none

/-- Match the trailing `(?P<CH>.*).tif` of the pattern against `cs`: `.*` is
greedy, so `CH` extends to the last position `e` such that `cs[e]` is any
character and `cs[e+1..e+3] = "tif"` (the unescaped `.` of `.tif` matches any
character); characters matched by `.` may not be newlines.  Returns the `CH`
capture. -/
def matchChTif : List Char → Option (List Char)
  | c :: cs =>
    -- prefer the longer capture: try extending CH by one character first
    match matchChTif cs with
    | some ch =>
      if c = '\n' then none else some (c :: ch)
    | none =>
      match c :: cs with
      | c0 :: 't' :: 'i' :: 'f' :: _ =>
        if c0 = '\n' then none else some []
      | _ => none
  | [] => none

/-- Try to match the whole pattern at the current position with a prefix
capture of exactly `n` word characters. -/
def matchAtWithPreLen (it : ImgType) (cs : List Char) (n : Nat) : Option MGroups := do
  let pre := cs.take n
  let rest := cs.drop n
  let ((tv, xyv, sv, zv), chrest) ← matchAfterPre it rest
  let ch ← matchChTif chrest
  some ⟨String.mk pre, tv, xyv, sv, zv, String.mk ch⟩

/-- Try all prefix lengths from `n` down to 1 (`\w+` is greedy: `re` tries the
longest first and backtracks). -/
def tryPreLens (it : ImgType) (cs : List Char) : Nat → Option MGroups
  | 0 => none
  | n + 1 =>
    match matchAtWithPreLen it cs (n + 1) with
    | some g => some g
    | none => tryPreLens it cs n

/-- The length of the maximal word-character run at the head of the list. -/
def wordRunLen : List Char → Nat
  | c :: cs => if isWordChar c then wordRunLen cs + 1 else 0
  | [] => 0

/-- `re.search(pattern, name)` for the pattern built by `matchImgType`: try
every start position from the left (`re.search` returns the leftmost match);
at each position the `(?P<prefix>\w+)` capture is tried greedily from the
maximal word run down. -/
def searchL (it : ImgType) : List Char → Option MGroups
  | [] => none
  | c :: cs =>
    match tryPreLens it (c :: cs) (wordRunLen (c :: cs)) with
    | some g => some g
    | none => searchL it cs

/-- `re.search` of the constructed pattern on a filename. -/
def searchName (it : ImgType) (name : String) : Option MGroups :=
  searchL it name.toList

/-- The scan of `re.sub(r'(XY\d+)', repl, name)`: at each position, if
`XY<digits>` (greedy, at least one digit) matches, replace it and continue
after the match (matches are non-overlapping); otherwise advance one
character.  Structural recursion on a fuel argument (each step consumes at
least one character, so fuel `cs.length` always suffices and the fuel-out case
is unreachable from `subXY`). -/
def subXYL (repl : List Char) : Nat → List Char → List Char
  | 0, cs => cs
  | _ + 1, [] => []
  | fuel + 1, 'X' :: 'Y' :: c :: rest =>
    if isDigitChar c then
      repl ++ subXYL repl fuel (digitRunSplit (c :: rest)).2
    else 'X' :: subXYL repl fuel ('Y' :: c :: rest)
  | fuel + 1, c :: rest => c :: subXYL repl fuel rest

/-- `re.sub(r'(XY\d+)', repl, name)`: replace every (leftmost, non-overlapping)
occurrence of `XY` followed by one or more digits.  The replacement strings of
the source contain no backslash, so `re`'s template expansion is plain
insertion. -/
def subXY (repl : String) (name : String) : String :=
  String.mk (subXYL repl.toList name.toList.length name.toList)

/-- `matchImgType`: classify the tree below `p` from the first `.tif` file
found by `path.rglob('*.tif')`.  When no file is found, the `for ... break`
loop body never runs and the following read of `isZstack` raises `NameError`
(there is no dedicated error class for this case in the source).  The regex
pattern the source returns alongside the flags is determined by the flags; the
matcher `searchName` takes the flags directly. -/
def matchImgType (fs : FS) (p : FPath) : Except Err ImgType :=
  match rglobTifs fs p with
  | [] => .error .nameError
  | f :: _ =>
    let cs := (f.getLastD "").toList
    .ok ⟨probeZL cs, probeTL cs, probeStitchL cs⟩

/-! ### Grouping validation and destination planning -/

/-- `groupby_opt = ['none', 'XY', 'cond', 'T', 'stitch', 'Z', 'CH', 'natural']`. -/
def groupbyOpt : List String :=
  ["none", "XY", "cond", "T", "stitch", "Z", "CH", "natural"]

/-- The validation loop of `moveFiles` plus the `none`/`natural` exclusivity
check, returning the first error raised (all are `IncorrectGroupbyError`).
The source literally guards `'T'` by `not img_type['isStitch']` and
`'stitch'` by `not img_type['isTimelapse']`. -/
def validateGroupby (groupby : List String) (it : ImgType) : Option Err :=
  match groupby.findSome? (fun g =>
    if g ∉ groupbyOpt then some Err.incorrectGroupby
    else if g = "T" ∧ ¬ it.isStitch then some Err.incorrectGroupby
    else if g = "stitch" ∧ ¬ it.isTimelapse then some Err.incorrectGroupby
    else if g = "Z" ∧ ¬ it.isZstack then some Err.incorrectGroupby
    else none) with
  | some e => some e
  | none =>
    if ("none" ∈ groupby ∨ "natural" ∈ groupby) ∧ groupby.length ≠ 1 then
      some Err.incorrectGroupby
    else none

/-- `match.group(name)` on the match object for the constructed pattern:
`none` models the `IndexError` raised for a group name absent from the
pattern. -/
def mgroup (m : MGroups) : String → Option String
  | "prefix" => some m.prefixval
  | "T" => m.tval
  | "XY" => some m.xy
  | "stitch" => m.stitchval
  | "Z" => m.zval
  | "CH" => some m.chval
  | _ => none

/-- `getGroupbyPath`: compute the destination directory from the groupby
options.  `none` models the exceptions the Python code would raise
(`IndexError` on `groupby[0]` for an empty list or on `match.group` for a
group absent from the pattern). -/
def getGroupbyPath (path : FPath) (groupby : List String) (it : ImgType)
    (well_info uniq_well_ID : String) (m : MGroups) : Option FPath :=
  match groupby with
  | [] => none
  | g0 :: _ =>
    if g0 = "none" then some path
    else if g0 = "natural" then
      let base := path ++ [well_info, uniq_well_ID ++ "_" ++ well_info]
      if it.isStitch then
        match m.stitchval with
        | none => none
        | some sv =>
          if it.isZstack then
            match m.zval with
            | none => none
            | some zv => some (base ++ ["stitch" ++ sv, zv, m.chval])
          else some (base ++ ["stitch" ++ sv, m.chval])
      else
        if it.isZstack then
          match m.zval with
          | none => none
          | some zv => some (base ++ [zv, m.chval])
        else some (base ++ [m.chval])
    else
      groupby.foldlM (fun d g =>
        if g = "cond" then some (d ++ [well_info])
        else if g = "XY" then some (d ++ [uniq_well_ID ++ "_" ++ well_info])
        else match mgroup m g with
          | some v => some (d ++ [g ++ v])
          | none => none) path

/-! ### Position resolver (`mapXYtoWell`) -/

/-- Pointwise update of a string-keyed dictionary. -/
def updF (f : String → Option String) (k v : String) : String → Option String :=
  fun x => if x = k then some v else f x

/-- Pointwise update of the duplicate-counter dictionary. -/
def updN (f : String → Option Nat) (k : String) (v : Nat) : String → Option Nat :=
  fun x => if x = k then some v else f x

/-- `'{}({})'.format(well, k)` (also `well+'(1)'`, `well+'(2)'`): the
disambiguated label for the `k`-th occurrence of a duplicated well. -/
def dupLabel (w : String) (k : Nat) : String :=
  w ++ ("(" ++ (toString k ++ ")"))

/-- The five mutable dictionaries/lists of `mapXYtoWell`. -/
structure XYMaps where
  toWell : String → Option String
  toWellUnique : String → Option String
  wellToXYUnique : String → Option String
  wellList : List String
  dups : String → Option Nat

/-- The initial (empty) resolver state. -/
def initXY : XYMaps :=
  ⟨fun _ => none, fun _ => none, fun _ => none, [], fun _ => none⟩

/-- One iteration of the `for f in path.glob(r'*XY*/_*')` loop of
`mapXYtoWell`, on the pair (`XY` = `f.parent.name`, `well` = `f.name[1:]`). -/
def xyStep (st : XYMaps) (e : String × String) : XYMaps :=
  let xy := e.1
  let well := e.2
  let st1 :=
    if well ∈ st.wellList then
      match st.dups well with
      | none =>
        -- first repeat: retroactively relabel the first occurrence as (1)
        let firstXY := (st.wellToXYUnique well).getD ""
        { st with
          toWellUnique := updF (updF st.toWellUnique firstXY (dupLabel well 1)) xy (dupLabel well 2),
          dups := updN st.dups well 2 }
      | some n =>
        { st with
          dups := updN st.dups well (n + 1),
          toWellUnique := updF st.toWellUnique xy (dupLabel well (n + 1)) }
    else
      { st with
        toWellUnique := updF st.toWellUnique xy well,
        wellToXYUnique := updF st.wellToXYUnique well xy,
        wellList := st.wellList ++ [well] }
  { st1 with toWell := updF st1.toWell xy well }

/-- `mapXYtoWell` on an explicit scan list (encounter order of the underlying
directory walk). -/
def mapXYtoWellList (l : List (String × String)) : XYMaps :=
  l.foldl xyStep initXY

/-- The scan `path.glob(r'*XY*/_*')`: entries two levels below `path` whose
parent name contains `XY` and whose own name starts with `_`, yielding the
pair (parent name, name minus the leading `_`), in enumeration order. -/
def scanMarkers (fs : FS) (p : FPath) : List (String × String) :=
  fs.filterMap (fun e =>
    if p.isPrefixOf e.path then
      match e.path.drop p.length with
      | [a, b] =>
        if containsXY a.toList then
          -- names matching `_*` start with `_`; `f.name[1:]` strips it
          match b.toList with
          | '_' :: welltl => some (a, String.mk welltl)
          | _ => none
        else none
      | _ => none
    else none)

/-- `mapXYtoWell` on the filesystem. -/
def mapXYtoWell (fs : FS) (p : FPath) : XYMaps :=
  mapXYtoWellList (scanMarkers fs p)

/-- The position names carrying raw label `w`, in encounter order of the scan. -/
def wellOccs (l : List (String × String)) (w : String) : List String :=
  (l.filter (fun e => e.2 = w)).map Prod.fst

/-- The raw label carried by position `xy` (the well of the first scan entry
for that position; the positions of a real scan are distinct). -/
def xyWell (l : List (String × String)) (xy : String) : Option String :=
  (l.find? (fun e => e.1 = xy)).map Prod.snd

/-- The disambiguated label the resolver assigns to the position `xy` whose
raw label is `w` with occurrence list `occs`: the raw label itself when the
label is unique, and `w(k)` for the `k`-th occurrence otherwise. -/
def uniqName (w : String) (occs : List String) (xy : String) : String :=
  if occs.length = 1 then w else dupLabel w (occs.indexOf xy + 1)

/-- Full characterization of the resolver state after scanning `l`. -/
def XYInv (l : List (String × String)) (st : XYMaps) : Prop :=
  (∀ w, w ∈ st.wellList ↔ wellOccs l w ≠ []) ∧
  (∀ w, st.dups w =
    if 2 ≤ (wellOccs l w).length then some (wellOccs l w).length else none) ∧
  (∀ w, st.wellToXYUnique w = (wellOccs l w).head?) ∧
  (∀ xy w, xyWell l xy = some w →
    st.toWellUnique xy = some (uniqName w (wellOccs l w) xy)) ∧
  (∀ xy, xyWell l xy = none → st.toWellUnique xy = none)

/-! ### Filesystem mutation primitives, events and outcomes -/

/-- Observable filesystem mutations, in the order they are performed. -/
inductive Ev where
  | mkdirEv (p : FPath)
  | wroteRecord (p : FPath)
  | movedEv (src dst : FPath)
  | removedDir (p : FPath)
  | unlinked (p : FPath)
  | renamedFile (src dst : FPath)
deriving DecidableEq, Repr

/-- How a call to the engine ends: normal return, an error caught by the
`try/except RuntimeError` block (which prints it and returns normally), or an
exception that propagates to the caller. -/
inductive Outcome where
  | ok
  | caught (e : Err)
  | raised (e : Err)
deriving DecidableEq, Repr

/-- Final filesystem, the trace of mutations performed, and the outcome. -/
structure RunResult where
  fs : FS
  tr : List Ev
  out : Outcome
deriving DecidableEq, Repr

/-- Replace the leading segments `s` of a path by `d` (the effect of
`os.replace(s, d)` on each path in the moved subtree). -/
def rewritePath (s d p : FPath) : FPath :=
  if s.isPrefixOf p then d ++ p.drop s.length else p

/-- Change an entry's path. -/
def Entry.withPath : Entry → FPath → Entry
  | .dir _, q => .dir q
  | .file _ c, q => .file q c

/-- `src.replace(dest)`: rename `s` to `d`, carrying the whole subtree. -/
def replaceOp (s d : FPath) (fs : FS) : FS :=
  fs.map (fun e => e.withPath (rewritePath s d e.path))

/-- `dest.mkdir()`: fails if the path exists (`FileExistsError`) or the parent
is missing or not a directory (`FileNotFoundError`/`NotADirectoryError`). -/
def mkdirOp (fs : FS) (d : FPath) : Except Err FS :=
  if existsP fs d then .error .fileExists
  else if isDirP fs d.dropLast then .ok (fs ++ [.dir d])
  else .error .osError

/-- Remove the entry (if any) whose path is exactly `p`. -/
def removeEntryAt (fs : FS) (p : FPath) : FS :=
  fs.filter (fun e => e.path ≠ p)

/-- `rmkdir`: recursively create missing parents first, then `dest` itself,
appending each created directory to `new_dirs` (parents before children).
Structural recursion on a fuel argument (each recursive call drops the last
segment, so fuel `dest.length` always suffices; the Python recursion
terminates the same way because ancestors of the group folder exist). -/
def rmkdirFuel : Nat → FPath → FS → List Ev → List FPath →
    Except Err (FS × List Ev × List FPath)
  | 0, _, _, _, _ => .error .osError
  | fuel + 1, dest, fs, tr, nds =>
    if existsP fs dest.dropLast then
      match mkdirOp fs dest with
      | .error e => .error e
      | .ok fs2 => .ok (fs2, tr ++ [.mkdirEv dest], nds ++ [dest])
    else
      match rmkdirFuel fuel dest.dropLast fs tr nds with
      | .error e => .error e
      | .ok (fs2, tr2, nds2) =>
        match mkdirOp fs2 dest with
        | .error e => .error e
        | .ok fs3 => .ok (fs3, tr2 ++ [.mkdirEv dest], nds2 ++ [dest])

/-- `rmkdir(dest, new_dirs)` with enough fuel for the whole parent chain. -/
def rmkdir (dest : FPath) (fs : FS) (tr : List Ev) (nds : List FPath) :
    Except Err (FS × List Ev × List FPath) :=
  rmkdirFuel dest.length dest fs tr nds

/-- The two `Actually move ...` loops of `moveFiles` (and the inverse-move loop
of `revMoveFiles`): for each `(src, dest)` pair in order, raise
`DestExistsError` if the destination exists, raise `FileNotFoundError`
(modelled `osError`) if the source is gone, otherwise `src.replace(dest)`. -/
def execMoves : List (FPath × FPath) → FS → List Ev → (FS × List Ev × Option Err)
  | [], fs, tr => (fs, tr, none)
  | (s, d) :: rest, fs, tr =>
    if existsP fs d then (fs, tr, some .destExists)
    else if existsP fs s then execMoves rest (replaceOp s d fs) (tr ++ [.movedEv s d])
    else (fs, tr, some .osError)

/-- Write the record document to `path/record.json` (`open(..., 'w')` +
`json.dump`): truncates an existing file, fails on a directory. -/
def writeRecordOp (fs : FS) (path : FPath) (r : MoveRecord) : Except Err FS :=
  let rp := path ++ ["record.json"]
  if isDirP fs rp then .error .osError
  else .ok (removeEntryAt fs rp ++ [.file rp (.recData r)])

/-! ### The move transaction -/

/-- The planning loop of `moveFiles` (`for f in path.rglob('*.tif')`): match
each filename, resolve well and condition, create the destination directory if
needed, and accumulate the `(oldpath, newpath)` record list. -/
def planLoop (it : ImgType) (groupby : List String) (path : FPath)
    (wellMap : String → Option String) (xm : XYMaps) :
    List FPath → FS → List Ev → List FPath → List (FPath × FPath) →
    (FS × List Ev × List FPath × List (FPath × FPath) × Option Err)
  | [], fs, tr, nds, recl => (fs, tr, nds, recl, none)
  | f :: rest, fs, tr, nds, recl =>
    let name := f.getLastD ""
    match searchName it name with
    | none => (fs, tr, nds, recl, some .attributeError)
    | some g =>
      match xm.toWell ("XY" ++ g.xy) with
      | none => (fs, tr, nds, recl, some .keyError)
      | some wellID =>
        match xm.toWellUnique ("XY" ++ g.xy) with
        | none => (fs, tr, nds, recl, some .keyError)
        | some uniq =>
          match wellMap wellID with
          | none => (fs, tr, nds, recl, some .wellNotFound)
          | some cond =>
            match getGroupbyPath path groupby it cond uniq g with
            | none => (fs, tr, nds, recl, some .indexError)
            | some destDir =>
              match (if existsP fs destDir then Except.ok (fs, tr, nds)
                     else rmkdir destDir fs tr nds) with
              | .error e => (fs, tr, nds, recl, some e)
              | .ok (fs2, tr2, nds2) =>
                let newName := subXY (uniq ++ "_" ++ cond) name
                planLoop it groupby path wellMap xm rest fs2 tr2 nds2
                  (recl ++ [(f, destDir ++ [newName])])

/-- The executed part of a persisted transaction: the record has just been
written to `fs3` (whose trace so far is `tr3`); move the image files, then the
unmoved entries. -/
def execPhase (recl unmoved_list : List (FPath × FPath)) (fs3 : FS)
    (tr3 : List Ev) : RunResult :=
  match execMoves recl fs3 tr3 with
  | (fs4, tr4, some e) => ⟨fs4, tr4, .raised e⟩
  | (fs4, tr4, none) =>
    match execMoves unmoved_list fs4 tr4 with
    | (fs5, tr5, some e) => ⟨fs5, tr5, .raised e⟩
    | (fs5, tr5, none) => ⟨fs5, tr5, .ok⟩

/-- The body of `moveFiles` after validation has passed: plan the `unmoved`
entries, make the `unmoved` directory, plan the image moves (creating
destination directories), persist the record, then execute. -/
def moveFilesBody (path : FPath) (wellMap : String → Option String)
    (now : String) (fs : FS) (groupby : List String) (it : ImgType) : RunResult :=
  let unmovedDest := path ++ ["unmoved"]
  let names := (childNames fs path).filter (fun n => n ≠ ".DS_Store")
  let unmoved_list := names.map (fun n => (path ++ [n], unmovedDest ++ [n]))
  match mkdirOp fs unmovedDest with
  | .error e => ⟨fs, [], .raised e⟩
  | .ok fs1 =>
    let tr1 : List Ev := [.mkdirEv unmovedDest]
    let nds1 : List FPath := [unmovedDest]
    let xm := mapXYtoWell fs1 path
    let tifs := rglobTifs fs1 path
    match planLoop it groupby path wellMap xm tifs fs1 tr1 nds1 [] with
    | (fs2, tr2, _, _, some e) => ⟨fs2, tr2, .raised e⟩
    | (fs2, tr2, nds2, recl, none) =>
      let r : MoveRecord := ⟨now, unmoved_list, recl, nds2⟩
      match writeRecordOp fs2 path r with
      | .error e => ⟨fs2, tr2, .raised e⟩
      | .ok fs3 =>
        execPhase recl unmoved_list fs3
          (tr2 ++ [.wroteRecord (path ++ ["record.json"])])

/-- `moveFiles(path, wellMap, groupby)`: the move transaction.  `now` is the
`datetime.now()` timestamp (an input of the model).  Validation errors are
caught by the `try/except` block (outcome `caught`: printed, normal return);
everything after it propagates (`raised`).  Note that the source checks for a
leftover `record.txt` but persists the record as `record.json`. -/
def moveFiles (path : FPath) (wellMap : String → Option String) (now : String)
    (fs : FS) (groupby : List String) : RunResult :=
  match matchImgType fs path with
  | .error e => ⟨fs, [], .raised e⟩
  | .ok it =>
    match validateGroupby groupby it with
    | some e => ⟨fs, [], .caught e⟩
    | none =>
      if existsP fs (path ++ ["record.txt"]) then ⟨fs, [], .caught .recordExists⟩
      else moveFilesBody path wellMap now fs groupby it

/-! ### The reversal engine -/

/-- The `len` sort key of `new_dir_list.sort(key=len, reverse=True)`: the
length of `str(Path(p))`.  For an absolute path of segments `s₁ … sₙ` this is
`len("/s₁/…/sₙ") = Σ len(sᵢ) + n`. -/
def pathStrLen (p : FPath) : Nat := (p.map String.length).sum + p.length

/-- Insert into a list sorted descending by `pathStrLen`, before the first
strictly shorter element (so ties keep their original relative order). -/
def insertDescLen (a : FPath) : List FPath → List FPath
  | [] => [a]
  | b :: rest =>
    if pathStrLen b ≤ pathStrLen a then a :: b :: rest
    else b :: insertDescLen a rest

/-- `new_dir_list.sort(key=len, reverse=True)`: stable descending sort by
path-string length, so that subdirectories are deleted before their parents.
Python's `list.sort` is stable; a stable insertion sort computes the same
permutation. -/
def sortNewDirs : List FPath → List FPath
  | [] => []
  | a :: rest => insertDescLen a (sortNewDirs rest)

/-- The directory-removal loop of `revMoveFiles`: for each recorded directory,
treat `st_size == 64` as "empty" (per the source's comment); otherwise unlink
the `.DS_Store` inside (raising if absent), then `rmdir` (raising if still
nonempty, missing, or not a directory). -/
def rmdirLoop : List FPath → FS → List Ev → (FS × List Ev × Option Err)
  | [], fs, tr => (fs, tr, none)
  | d :: rest, fs, tr =>
    if ¬ existsP fs d then (fs, tr, some .osError)
    else if (childEntries fs d).isEmpty then
      if isDirP fs d then rmdirLoop rest (removeEntryAt fs d) (tr ++ [.removedDir d])
      else (fs, tr, some .osError)
    else
      match lookupFile fs (d ++ [".DS_Store"]) with
      | none => (fs, tr, some .osError)
      | some _ =>
        let fs2 := removeEntryAt fs (d ++ [".DS_Store"])
        let tr2 := tr ++ [.unlinked (d ++ [".DS_Store"])]
        if (childEntries fs2 d).isEmpty ∧ isDirP fs2 d then
          rmdirLoop rest (removeEntryAt fs2 d) (tr2 ++ [.removedDir d])
        else (fs2, tr2, some .osError)

/-- `src.rename(dst)` on POSIX: move, silently replacing an existing `dst`. -/
def renameOp (fs : FS) (src dst : FPath) : FS :=
  replaceOp src dst (removeEntryAt fs dst)

/-- `revMoveFiles(path)`: load `record.json` (raising
`RecordDoesNotExistsError` if absent, an unmodelled JSON/OS error if it is not
a record document), perform the inverse moves (`unmoved_list` first, then
`record`), delete the recorded new directories children-first, and retire the
record by renaming it to `{record_time}_rev_record.json`. -/
def revMoveFiles (path : FPath) (fs : FS) : RunResult :=
  let rp := path ++ ["record.json"]
  if ¬ existsP fs rp then ⟨fs, [], .raised .recordDoesNotExist⟩
  else
    match lookupFile fs rp with
    | some (.recData r) =>
      match execMoves ((r.unmoved_list ++ r.record).map Prod.swap) fs [] with
      | (fs1, tr1, some e) => ⟨fs1, tr1, .raised e⟩
      | (fs1, tr1, none) =>
        match rmdirLoop (sortNewDirs r.new_dirs) fs1 tr1 with
        | (fs2, tr2, some e) => ⟨fs2, tr2, .raised e⟩
        | (fs2, tr2, none) =>
          if ¬ existsP fs2 rp then ⟨fs2, tr2, .raised .osError⟩
          else
            let retired := path ++ [r.record_time ++ "_rev_" ++ "record.json"]
            ⟨renameOp fs2 rp retired, tr2 ++ [.renamedFile rp retired], .ok⟩
    | _ => ⟨fs, [], .raised .osError⟩

/-! ### `well_mapping` (src/kfm.py lines 559-589)

`well_mapping(plate_spec, separator='.')` turns a plate specification — an
iterable of dicts mapping condition names to well-range strings — into a dict
from normalized well names to (separator-joined) condition names.  We model a
dict as an insertion-ordered association list (CPython dicts iterate in
insertion order); the `wells` *set* of the source is modelled as an
insertion-ordered duplicate-free list, which has the same membership as the
Python set (set iteration order is unspecified, so theorems about the output
are stated order-insensitively or about key membership/shape). -/

/-- The sixteen plate-row letters of `cti_mapping` / `itc_mapping`. -/
def rowChars : List Char :=
  ['A', 'B', 'C', 'D', 'E', 'F', 'G', 'H', 'I', 'J', 'K', 'L', 'M', 'N', 'O', 'P']

/-- `cti_mapping[c]`: index of a row letter (callers guarantee `c ∈ rowChars`). -/
def rowIdx (c : Char) : Nat := rowChars.indexOf c

/-- `itc_mapping[r]`: row letter of an index (callers guarantee `r < 16`). -/
def rowGet (r : Nat) : Char := rowChars.getD r 'A'

/-- The whitespace characters of Python's `str.split()` (ASCII range). -/
def wsChars : List Char := [' ', '\t', '\n', '\r', '\x0b', '\x0c']

/-- `int(ds)` on a nonempty digit string. -/
def natOfDigits (ds : List Char) : Nat :=
  ds.foldl (fun a c => a * 10 + (c.toNat - 48)) 0

/-- Decimal digits of `n` (most significant first), fuel-based so the kernel
can evaluate it; `[]` for `n = 0`. -/
def natDigitsAux : Nat → Nat → List Char
  | 0, _ => []
  | _ + 1, 0 => []
  | fuel + 1, n + 1 =>
    natDigitsAux fuel ((n + 1) / 10) ++ [Char.ofNat (48 + (n + 1) % 10)]

/-- Decimal representation of `n`, as Python's `'{}'.format(n)` produces. -/
def natToStrL (n : Nat) : List Char :=
  if n = 0 then ['0'] else natDigitsAux n n

/-- `'{:02d}'.format(n)`: decimal digits, left-padded with `'0'` to width 2. -/
def pad2L (n : Nat) : List Char :=
  if n < 10 then '0' :: natToStrL n else natToStrL n

/-- `'{}{:02d}'.format(c, n)`: a normalized well name. -/
def fmtKey (c : Char) (n : Nat) : String := String.mk (c :: pad2L n)

/-- `str.split(sep)` on a single-character separator (Python semantics:
`''.split(',') = ['']`, adjacent separators yield empty fields). -/
def splitOnChar (sep : Char) : List Char → List (List Char)
  | [] => [[]]
  | c :: rest =>
    match splitOnChar sep rest with
    | [] => [[]]
    | g :: gs => if c = sep then [] :: g :: gs else (c :: g) :: gs

/-- `re.fullmatch(r'^([A-P]\d+)$', token)`: a row letter followed by one or
more digits; returns the letter and the parsed column number. -/
def parseWellTok (cs : List Char) : Option (Char × Nat) :=
  match cs with
  | [] => none
  | c :: ds =>
    if c ∈ rowChars ∧ ds ≠ [] ∧ ds.all isDigitChar then some (c, natOfDigits ds)
    else none

/-- `re.fullmatch(r'^([A-P]\d+)-([A-P]\d+)$', token)`: two single-well groups
joined by a dash (splitting on `'-'` is equivalent: each side must be a pure
letter-digits group, so extra or misplaced dashes fail both views). -/
def parseDualTok (cs : List Char) : Option ((Char × Nat) × (Char × Nat)) :=
  match splitOnChar '-' cs with
  | [a, b] =>
    match parseWellTok a, parseWellTok b with
    | some x, some y => some (x, y)
    | _, _ => none
  | _ => none

/-- `itertools.product(range(min r, max r + 1), range(min n, max n + 1))`
mapped through `'{}{:02d}'.format(itc_mapping[row], col)`. -/
def prodWells (r1 r2 n1 n2 : Nat) : List String :=
  (List.range' (min r1 r2) (max r1 r2 + 1 - min r1 r2)).foldr
    (fun r acc =>
      (List.range' (min n1 n2) (max n1 n2 + 1 - min n1 n2)).map
        (fun col => fmtKey (rowGet r) col) ++ acc)
    []

/-- Process one comma-token: the single-well branch, the dual-range branch, or
`raise ValueError` (modelled as `.error ()`). -/
def tokenWells (cs : List Char) : Except Unit (List String) :=
  match parseWellTok cs with
  | some (c, n) => .ok [fmtKey c n]
  | none =>
    match parseDualTok cs with
    | some ((c1, n1), (c2, n2)) => .ok (prodWells (rowIdx c1) (rowIdx c2) n1 n2)
    | none => .error ()

/-- `wells.add(w)` on the insertion-ordered set model. -/
def addWell (ws : List String) (w : String) : List String :=
  if w ∈ ws then ws else ws ++ [w]

/-- The `for token in tokenized` loop: accumulate the `wells` set, aborting on
the first invalid token. -/
def collectWells : List (List Char) → List String → Except Unit (List String)
  | [], ws => .ok ws
  | t :: ts, ws =>
    match tokenWells t with
    | .error e => .error e
    | .ok wl => collectWells ts (wl.foldl addWell ws)

/-- One `output_mapping` update: insert `well ↦ key`, or append
`separator + key` to an existing entry. -/
def updOut (out : List (String × String)) (w key sep : String) :
    List (String × String) :=
  if out.any (fun p => p.1 = w) then
    out.map (fun p => if p.1 = w then (p.1, p.2 ++ sep ++ key) else p)
  else out ++ [(w, key)]

/-- The `for well in wells` loop over one entry's well set. -/
def applyWells (key sep : String) (ws : List String)
    (out : List (String × String)) : List (String × String) :=
  ws.foldl (fun o w => updOut o w key sep) out

/-- The `for key, val in mapping_dict.items()` loop: tokenize `val` with all
whitespace removed, collect its wells, and fold them into the output. -/
def procEntries (sep : String) :
    List (String × String) → List (String × String) →
      Except Unit (List (String × String))
  | [], out => .ok out
  | (key, val) :: rest, out =>
    match collectWells (splitOnChar ',' (val.data.filter (fun c => c ∉ wsChars))) [] with
    | .error e => .error e
    | .ok ws => procEntries sep rest (applyWells key sep ws out)

/-- The `for mapping_dict in plate_spec` loop. -/
def procDicts (sep : String) :
    List (List (String × String)) → List (String × String) →
      Except Unit (List (String × String))
  | [], out => .ok out
  | d :: ds, out =>
    match procEntries sep d out with
    | .error e => .error e
    | .ok out2 => procDicts sep ds out2

/-- `well_mapping(plate_spec, separator)` on the list-of-dicts form (a bare
dict argument is wrapped into a singleton list by the source before this
point). -/
def well_mapping (spec : List (List (String × String))) (sep : String) :
    Except Unit (List (String × String)) :=
  procDicts sep spec []

/-- The shape every produced key has: one row letter followed by at least two
decimal digits. -/
def keyShaped (s : String) : Prop :=
  ∃ c ds, s.data = c :: ds ∧ c ∈ rowChars ∧
    (∀ d ∈ ds, isDigitChar d = true) ∧ 2 ≤ ds.length

/-! ### Sample filesystems for concrete evaluations -/

/-- A well-formed Keyence group folder: two positions `XY01`, `XY02`, both
carrying the raw well label `A01` via their `_A01` marker entries, one image
file each, and one miscellaneous file. -/
def sampleFS : FS :=
  [ .dir ["g"],
    .dir ["g", "XY01"],
    .dir ["g", "XY01", "_A01"],
    .file ["g", "XY01", "Image_XY01_DAPI.tif"] (.blob 2),
    .dir ["g", "XY02"],
    .dir ["g", "XY02", "_A01"],
    .file ["g", "XY02", "Image_XY02_GFP.tif"] (.blob 4),
    .file ["g", "notes.txt"] (.blob 5) ]

/-- A condition map sending well `A01` to condition `ctrl`. -/
def sampleWM : String → Option String :=
  fun w => if w = "A01" then some "ctrl" else none

/-- The first move transaction on `sampleFS`, grouped by condition. -/
def sampleMove1 : RunResult :=
  moveFiles ["g"] sampleWM "TS" sampleFS ["cond"]

/-- `sampleFS` with the destination of the second image pre-existing on disk
(`g/ctrl/Image_A01(2)_ctrl_GFP.tif`), so the transaction collides. -/
def collideFS : FS :=
  sampleFS ++ [ .dir ["g", "ctrl"],
                .file ["g", "ctrl", "Image_A01(2)_ctrl_GFP.tif"] (.blob 9) ]

/-- The colliding move transaction on `collideFS`. -/
def collideMove : RunResult :=
  moveFiles ["g"] sampleWM "TS" collideFS ["cond"]

/-- A tree in which two image files (one nested one level deeper) plan the
same destination path, so the collision only materializes at execution time. -/
def dupDestFS : FS :=
  [ .dir ["g"],
    .dir ["g", "XY01"],
    .dir ["g", "XY01", "_A01"],
    .file ["g", "XY01", "Image_XY01_DAPI.tif"] (.blob 2),
    .dir ["g", "XY01", "extra"],
    .file ["g", "XY01", "extra", "Image_XY01_DAPI.tif"] (.blob 3),
    .file ["g", "notes.txt"] (.blob 5) ]

/-- The move transaction on `dupDestFS`, aborting with `DestExistsError`
during execution, after the record has been persisted. -/
def dupDestMove : RunResult :=
  moveFiles ["g"] sampleWM "TS" dupDestFS ["cond"]

/-- A source tree whose positions `XY01`, `XY05`, `XY09` all carry the raw
well label `A01` (markers `_A01`), `XY01` encountered first. -/
def dupScanFS : FS :=
  [ .dir ["g"],
    .dir ["g", "XY01"],
    .dir ["g", "XY01", "_A01"],
    .dir ["g", "XY05"],
    .dir ["g", "XY05", "_A01"],
    .dir ["g", "XY09"],
    .dir ["g", "XY09", "_A01"] ]

/-! ### Trace classification -/

/-- The record persisted by the successful run
`moveFiles ["g"] sampleWM "TS" sampleFS ["cond"]` (used to state the
round-trip witness). -/
def sampleRec : MoveRecord :=
  ⟨"TS",
    [(["g", "XY01"], ["g", "unmoved", "XY01"]),
     (["g", "XY02"], ["g", "unmoved", "XY02"]),
     (["g", "notes.txt"], ["g", "unmoved", "notes.txt"])],
    [(["g", "XY01", "Image_XY01_DAPI.tif"],
       ["g", "ctrl", "Image_A01(1)_ctrl_DAPI.tif"]),
     (["g", "XY02", "Image_XY02_GFP.tif"],
       ["g", "ctrl", "Image_A01(2)_ctrl_GFP.tif"])],
    [["g", "unmoved"], ["g", "ctrl"]]⟩

/-- Is the event a directory creation? -/
def Ev.isMkdir : Ev → Bool
  | .mkdirEv _ => true
  | _ => false

/-- Is the event a file/subtree move? -/
def Ev.isMove : Ev → Bool
  | .movedEv _ _ => true
  | _ => false

/-- Is the event the record write? -/
def Ev.isRecordWrite : Ev → Bool
  | .wroteRecord _ => true
  | _ => false

/-- The part of a trace before the record is persisted. -/
def beforeRecord (tr : List Ev) : List Ev :=
  tr.takeWhile (fun e => !e.isRecordWrite)

/-- The part of a trace from the record write on. -/
def fromRecord (tr : List Ev) : List Ev :=
  tr.dropWhile (fun e => !e.isRecordWrite)

/-! ### Round-trip infrastructure (claim C2)

The reversal analysis works with the *pure* effect of a successful move list
(`applyMoves`, the fold of `replaceOp`) and a decidable separation predicate
`MovesOK` expressing that the moves of one batch are mutually independent:
sources exist, destinations are fresh, and no recorded path is nested inside
another in a way that would make a later move capture an earlier move's
subtree.  Genuine Keyence trees satisfy these conditions; they are exactly
what makes a transaction "valid" in the sense of the spec's round-trip
guarantee. -/

/-- The pure filesystem effect of a list of successful `src.replace(dest)`
calls, in order. -/
def applyMoves (M : List (FPath × FPath)) (fs : FS) : FS :=
  M.foldl (fun f m => replaceOp m.1 m.2 f) fs

/-- The cumulative effect of a move list on a single path. -/
def rwChain (M : List (FPath × FPath)) (p : FPath) : FPath :=
  M.foldl (fun q m => rewritePath m.1 m.2 q) p

/-- Two paths neither of which is a prefix of the other (so the subtree of one
cannot contain the other). -/
def incomp (p q : FPath) : Prop :=
  p.isPrefixOf q = false ∧ q.isPrefixOf p = false

/-- Mutual independence of a batch of moves with respect to the filesystem it
runs on: every source exists; no entry sits at or below any destination; every
destination is incomparable with every source; sources are pairwise
incomparable; destinations are pairwise incomparable. -/
def MovesOK (M : List (FPath × FPath)) (fs : FS) : Prop :=
  (∀ m ∈ M, existsP fs m.1 = true) ∧
  (∀ m ∈ M, ∀ e ∈ fs, m.2.isPrefixOf e.path = false) ∧
  (∀ m ∈ M, ∀ m2 ∈ M, incomp m.2 m2.1) ∧
  List.Pairwise incomp (M.map Prod.fst) ∧
  List.Pairwise incomp (M.map Prod.snd)

instance (p q : FPath) : Decidable (incomp p q) := by
  unfold incomp; infer_instance

instance (M : List (FPath × FPath)) (fs : FS) : Decidable (MovesOK M fs) := by
  unfold MovesOK; infer_instance

/-- The canonical persisted-transaction state: the original tree, the created
directories (in creation order), and the record document, before any file has
been moved. -/
def recState (path : FPath) (fs0 : FS) (r : MoveRecord) : FS :=
  fs0 ++ r.new_dirs.map Entry.dir ++
    [.file (path ++ ["record.json"]) (.recData r)]

/-- Whether an entry is a regular file carrying a record document. -/
def isRecData : Entry → Bool
  | .file _ (.recData _) => true
  | _ => false

/-! ## Theorems settling the claims -/

/-! ### Phase lemmas about the engine -/

theorem Entry.path_withPath (e : Entry) (q : FPath) : (e.withPath q).path = q := by
  cases e <;> rfl

theorem rewritePath_of_not_pre {s p : FPath} (d : FPath)
    (hs : s.isPrefixOf p = false) : rewritePath s d p = p := by
  simp [rewritePath, hs]

theorem existsP_replaceOp_of {fs : FS} {p : FPath} (s d : FPath)
    (hp : existsP fs p = true) (hs : s.isPrefixOf p = false) :
    existsP (replaceOp s d fs) p = true := by
  simp only [existsP, List.any_eq_true] at hp ⊢
  obtain ⟨e, he, hep⟩ := hp
  refine ⟨e.withPath (rewritePath s d e.path), List.mem_map_of_mem _ he, ?_⟩
  simp only [Entry.path_withPath, decide_eq_true_eq] at hep ⊢
  rw [hep, rewritePath_of_not_pre d hs]

theorem matchImgType_error {fs : FS} {p : FPath} {e : Err}
    (h : matchImgType fs p = .error e) : e = .nameError := by
  unfold matchImgType at h
  split at h <;> simp_all

theorem mkdirOp_error {fs : FS} {d : FPath} {e : Err}
    (h : mkdirOp fs d = .error e) : e = .fileExists ∨ e = .osError := by
  unfold mkdirOp at h
  split at h
  · simp_all
  · split at h <;> simp_all

theorem writeRecordOp_error {fs : FS} {path : FPath} {r : MoveRecord} {e : Err}
    (h : writeRecordOp fs path r = .error e) : e = .osError := by
  simp only [writeRecordOp] at h
  split at h <;> simp_all

theorem writeRecordOp_exists {fs : FS} {path : FPath} {r : MoveRecord} {fs' : FS}
    (h : writeRecordOp fs path r = .ok fs') :
    existsP fs' (path ++ ["record.json"]) = true := by
  simp only [writeRecordOp] at h
  split at h
  · simp_all
  · simp only [Except.ok.injEq] at h
    subst h
    simp [existsP, Entry.path]

theorem rmkdirFuel_error {e : Err} :
    ∀ {n : Nat} {d : FPath} {fs : FS} {tr : List Ev} {nds : List FPath},
    rmkdirFuel n d fs tr nds = .error e → e = .fileExists ∨ e = .osError := by
  intro n
  induction n with
  | zero =>
    intro d fs tr nds h
    simp only [rmkdirFuel, Except.error.injEq] at h
    right; exact h.symm
  | succ n ih =>
    intro d fs tr nds h
    unfold rmkdirFuel at h
    split at h
    · split at h
      · simp only [Except.error.injEq] at h
        subst h
        exact mkdirOp_error ‹_›
      · simp at h
    · split at h
      · simp only [Except.error.injEq] at h
        subst h
        exact ih ‹_›
      · split at h
        · simp only [Except.error.injEq] at h
          subst h
          exact mkdirOp_error ‹_›
        · simp at h

theorem planLoop_error (it : ImgType) (gb : List String) (path : FPath)
    (wm : String → Option String) (xm : XYMaps) :
    ∀ (tifs : List FPath) (fs : FS) (tr : List Ev) (nds : List FPath)
      (recl : List (FPath × FPath)) {fs' : FS} {tr' : List Ev} {nds' : List FPath}
      {recl' : List (FPath × FPath)} {e : Err},
      planLoop it gb path wm xm tifs fs tr nds recl = (fs', tr', nds', recl', some e) →
      e = .attributeError ∨ e = .keyError ∨ e = .wellNotFound ∨ e = .indexError ∨
        e = .fileExists ∨ e = .osError := by
  intro tifs
  induction tifs with
  | nil =>
    intro fs tr nds recl fs' tr' nds' recl' e h
    simp [planLoop] at h
  | cons f rest ih =>
    intro fs tr nds recl fs' tr' nds' recl' e h
    simp only [planLoop] at h
    split at h
    · simp_all
    · split at h
      · simp_all
      · split at h
        · simp_all
        · split at h
          · simp_all
          · split at h
            · simp_all
            · split at h
              · rename_i e2 herr
                simp only [Prod.mk.injEq] at h
                obtain ⟨-, -, -, -, hsome⟩ := h
                injection hsome with he
                subst he
                split at herr
                · simp at herr
                · unfold rmkdir at herr
                  rcases rmkdirFuel_error herr with h' | h'
                  · right; right; right; right; left; exact h'
                  · right; right; right; right; right; exact h'
              · exact ih _ _ _ _ h

theorem execMoves_error {e : Err} :
    ∀ (l : List (FPath × FPath)) (fs : FS) (tr : List Ev) {fs' : FS} {tr' : List Ev},
    execMoves l fs tr = (fs', tr', some e) → e = .destExists ∨ e = .osError := by
  intro l
  induction l with
  | nil =>
    intro fs tr fs' tr' h
    simp [execMoves] at h
  | cons sd rest ih =>
    intro fs tr fs' tr' h
    obtain ⟨s, d⟩ := sd
    unfold execMoves at h
    split at h
    · simp_all
    · split at h
      · exact ih _ _ h
      · simp_all

theorem execMoves_exists {p : FPath} :
    ∀ (l : List (FPath × FPath)) (fs : FS) (tr : List Ev),
    existsP fs p = true → (∀ sd ∈ l, sd.1.isPrefixOf p = false) →
    existsP (execMoves l fs tr).1 p = true := by
  intro l
  induction l with
  | nil =>
    intro fs tr hp _
    simpa [execMoves] using hp
  | cons sd rest ih =>
    intro fs tr hp hl
    obtain ⟨s, d⟩ := sd
    unfold execMoves
    split
    · exact hp
    · split
      · exact ih _ _ (existsP_replaceOp_of s d hp (hl (s, d) (by simp))) fun x hx =>
          hl x (List.mem_cons_of_mem _ hx)
      · exact hp

theorem execPhase_exists {p : FPath} {recl unmoved : List (FPath × FPath)}
    {fs3 : FS} {tr3 : List Ev}
    (hp : existsP fs3 p = true)
    (h1 : ∀ sd ∈ recl, sd.1.isPrefixOf p = false)
    (h2 : ∀ sd ∈ unmoved, sd.1.isPrefixOf p = false) :
    existsP (execPhase recl unmoved fs3 tr3).fs p = true := by
  unfold execPhase
  have hx1 := execMoves_exists recl fs3 tr3 hp h1
  split
  · rename_i heq
    rw [heq] at hx1
    exact hx1
  · rename_i fs4 tr4 heq
    rw [heq] at hx1
    have hx2 := execMoves_exists unmoved fs4 tr4 hx1 h2
    split
    · rename_i heq2
      rw [heq2] at hx2
      exact hx2
    · rename_i heq2
      rw [heq2] at hx2
      exact hx2

theorem takeWhile_append_all {α : Type} {p : α → Bool} :
    ∀ {l1 l2 : List α}, l1.all p = true →
      (l1 ++ l2).takeWhile p = l1 ++ l2.takeWhile p := by
  intro l1
  induction l1 with
  | nil => intro l2 _; rfl
  | cons a l1 ih =>
    intro l2 h
    simp only [List.all_cons, Bool.and_eq_true] at h
    simp [List.takeWhile_cons, h.1, ih h.2]

theorem dropWhile_append_all {α : Type} {p : α → Bool} :
    ∀ {l1 l2 : List α}, l1.all p = true →
      (l1 ++ l2).dropWhile p = l2.dropWhile p := by
  intro l1
  induction l1 with
  | nil => intro l2 _; rfl
  | cons a l1 ih =>
    intro l2 h
    simp only [List.all_cons, Bool.and_eq_true] at h
    simp [List.dropWhile_cons, h.1, ih h.2]

theorem isMkdir_not_record {e : Ev} (h : e.isMkdir = true) :
    e.isRecordWrite = false := by
  cases e <;> simp_all [Ev.isMkdir, Ev.isRecordWrite]

theorem isMove_not_mkdir {e : Ev} (h : e.isMove = true) : e.isMkdir = false := by
  cases e <;> simp_all [Ev.isMove, Ev.isMkdir]

theorem all_mkdir_not_record {l : List Ev} (h : l.all Ev.isMkdir = true) :
    l.all (fun e => !e.isRecordWrite) = true := by
  simp only [List.all_eq_true] at h ⊢
  intro e he
  simp [isMkdir_not_record (h e he)]

theorem all_move_not_mkdir {l : List Ev} (h : l.all Ev.isMove = true) :
    l.all (fun e => !e.isMkdir) = true := by
  simp only [List.all_eq_true] at h ⊢
  intro e he
  simp [isMove_not_mkdir (h e he)]

theorem takeWhile_all_eq {p : Ev → Bool} {l : List Ev} (h : l.all p = true) :
    l.takeWhile p = l := by
  have := @takeWhile_append_all Ev p l [] h
  simpa using this

theorem dropWhile_all_eq {p : Ev → Bool} {l : List Ev} (h : l.all p = true) :
    l.dropWhile p = [] := by
  have := @dropWhile_append_all Ev p l [] h
  simpa using this

theorem execMoves_tr : ∀ (l : List (FPath × FPath)) (fs : FS) (tr : List Ev),
    ∃ extra, (execMoves l fs tr).2.1 = tr ++ extra ∧ extra.all Ev.isMove = true := by
  intro l
  induction l with
  | nil => intro fs tr; exact ⟨[], by simp [execMoves], rfl⟩
  | cons sd rest ih =>
    intro fs tr
    obtain ⟨s, d⟩ := sd
    unfold execMoves
    split
    · exact ⟨[], by simp, rfl⟩
    · split
      · obtain ⟨extra, h1, h2⟩ := ih (replaceOp s d fs) (tr ++ [Ev.movedEv s d])
        refine ⟨Ev.movedEv s d :: extra, ?_, ?_⟩
        · rw [h1]; simp
        · simp only [List.all_cons, Bool.and_eq_true]
          exact ⟨rfl, h2⟩
      · exact ⟨[], by simp, rfl⟩

theorem execPhase_tr (recl unmoved : List (FPath × FPath)) (fs3 : FS)
    (tr3 : List Ev) :
    ∃ extra, (execPhase recl unmoved fs3 tr3).tr = tr3 ++ extra ∧
      extra.all Ev.isMove = true := by
  unfold execPhase
  obtain ⟨e1, h1, ha1⟩ := execMoves_tr recl fs3 tr3
  split
  · rename_i fs4 tr4 e heq
    rw [heq] at h1
    dsimp only at h1 ⊢
    exact ⟨e1, h1, ha1⟩
  · rename_i fs4 tr4 heq
    rw [heq] at h1
    dsimp only at h1
    obtain ⟨e2, h2, ha2⟩ := execMoves_tr unmoved fs4 tr4
    split
    · rename_i fs5 tr5 e heq2
      rw [heq2] at h2
      dsimp only at h2 ⊢
      refine ⟨e1 ++ e2, ?_, by simp [List.all_append, ha1, ha2]⟩
      rw [h2, h1, List.append_assoc]
    · rename_i fs5 tr5 heq2
      rw [heq2] at h2
      dsimp only at h2 ⊢
      refine ⟨e1 ++ e2, ?_, by simp [List.all_append, ha1, ha2]⟩
      rw [h2, h1, List.append_assoc]

theorem rmkdirFuel_tr :
    ∀ {n : Nat} {d : FPath} {fs : FS} {tr : List Ev} {nds : List FPath}
      {res : FS × List Ev × List FPath},
      rmkdirFuel n d fs tr nds = .ok res →
      ∃ extra, res.2.1 = tr ++ extra ∧ extra.all Ev.isMkdir = true := by
  intro n
  induction n with
  | zero => intro d fs tr nds res h; simp [rmkdirFuel] at h
  | succ n ih =>
    intro d fs tr nds res h
    unfold rmkdirFuel at h
    split at h
    · split at h
      · simp at h
      · simp only [Except.ok.injEq] at h
        subst h
        exact ⟨[Ev.mkdirEv d], rfl, rfl⟩
    · split at h
      · simp at h
      · rename_i fs2 tr2 nds2 heq
        split at h
        · simp at h
        · simp only [Except.ok.injEq] at h
          subst h
          obtain ⟨extra, h1, h2⟩ := ih heq
          refine ⟨extra ++ [Ev.mkdirEv d], ?_, ?_⟩
          · simp only at h1 ⊢
            rw [h1, List.append_assoc]
          · simp [List.all_append, h2, Ev.isMkdir]

theorem planLoop_tr (it : ImgType) (gb : List String) (path : FPath)
    (wm : String → Option String) (xm : XYMaps) :
    ∀ (tifs : List FPath) (fs : FS) (tr : List Ev) (nds : List FPath)
      (recl : List (FPath × FPath)),
      ∃ extra, (planLoop it gb path wm xm tifs fs tr nds recl).2.1 = tr ++ extra ∧
        extra.all Ev.isMkdir = true := by
  intro tifs
  induction tifs with
  | nil => intro fs tr nds recl; exact ⟨[], by simp [planLoop], rfl⟩
  | cons f rest ih =>
    intro fs tr nds recl
    simp only [planLoop]
    split
    · exact ⟨[], by simp, rfl⟩
    · split
      · exact ⟨[], by simp, rfl⟩
      · split
        · exact ⟨[], by simp, rfl⟩
        · split
          · exact ⟨[], by simp, rfl⟩
          · split
            · exact ⟨[], by simp, rfl⟩
            · split
              · exact ⟨[], by simp, rfl⟩
              · rename_i fs2 tr2 nds2 heq
                have htr2 : ∃ extra2, tr2 = tr ++ extra2 ∧
                    extra2.all Ev.isMkdir = true := by
                  split at heq
                  · simp only [Except.ok.injEq, Prod.mk.injEq] at heq
                    obtain ⟨-, h2, -⟩ := heq
                    exact ⟨[], by rw [← h2]; simp, rfl⟩
                  · unfold rmkdir at heq
                    exact rmkdirFuel_tr heq
                obtain ⟨extra2, he2, ha2⟩ := htr2
                obtain ⟨extra3, he3, ha3⟩ := ih _ _ _ _
                refine ⟨extra2 ++ extra3, ?_, ?_⟩
                · rw [he3, he2, List.append_assoc]
                · simp [List.all_append, ha2, ha3]

theorem validateGroupby_err {gb : List String} {it : ImgType} {e : Err}
    (h : validateGroupby gb it = some e) : e = .incorrectGroupby := by
  unfold validateGroupby at h
  split at h
  · rename_i e2 heq
    injection h with h'
    subst h'
    obtain ⟨g, -, hg⟩ := List.exists_of_findSome?_eq_some heq
    split at hg
    · injection hg with h''; exact h''.symm
    · split at hg
      · injection hg with h''; exact h''.symm
      · split at hg
        · injection hg with h''; exact h''.symm
        · split at hg
          · injection hg with h''; exact h''.symm
          · simp at hg
  · split at h
    · injection h with h'; exact h'.symm
    · simp at h

theorem rglobTifs_mem {fs : FS} {p f : FPath} (h : f ∈ rglobTifs fs p) :
    underP p f = true ∧ nameEndsTif (f.getLastD "") = true := by
  simp only [rglobTifs, List.mem_filterMap] at h
  obtain ⟨e, -, he⟩ := h
  cases e with
  | dir q => simp at he
  | file q dta =>
    simp only at he
    split at he
    · rename_i hcond
      injection he with he'
      subst he'
      simpa using hcond
    · simp at he

theorem not_prefixOf_append_singleton {path f : FPath} (nm : String)
    (hu : underP path f = true) (hne : f.getLastD "" ≠ nm) :
    f.isPrefixOf (path ++ [nm]) = false := by
  by_contra hc
  rw [Bool.not_eq_false, List.isPrefixOf_iff_prefix] at hc
  obtain ⟨t, ht⟩ := hc
  simp only [underP, Bool.and_eq_true, decide_eq_true_eq] at hu
  have hlen : f.length + t.length = path.length + 1 := by
    have := congrArg List.length ht
    simpa using this
  have ht0 : t = [] := by
    have := hu.2
    cases t with
    | nil => rfl
    | cons a t' => simp [List.length_cons] at hlen; omega
  subst ht0
  simp only [List.append_nil] at ht
  subst ht
  exact hne (List.getLastD_concat _ _ _)

theorem childNames_exists {fs : FS} {path : FPath} {n : String}
    (h : n ∈ childNames fs path) : existsP fs (path ++ [n]) = true := by
  simp only [childNames, childEntries, List.mem_map, List.mem_filter,
    Bool.and_eq_true, decide_eq_true_eq] at h
  obtain ⟨e, ⟨he, hlen, hpre⟩, hname⟩ := h
  rw [List.isPrefixOf_iff_prefix] at hpre
  obtain ⟨t, ht⟩ := hpre
  have htlen : t.length = 1 := by
    have := congrArg List.length ht
    simp only [List.length_append] at this
    omega
  obtain ⟨x, rfl⟩ : ∃ x, t = [x] := by
    cases t with
    | nil => simp at htlen
    | cons a t' =>
      cases t' with
      | nil => exact ⟨a, rfl⟩
      | cons b t'' => simp at htlen
  have hx : e.path = path ++ [x] := ht.symm
  have hnx : n = x := by
    rw [← hname, hx, List.getLastD_concat]
  subst hnx
  simp only [existsP, List.any_eq_true, decide_eq_true_eq]
  exact ⟨e, he, hx⟩

theorem planLoop_recl (it : ImgType) (gb : List String) (path : FPath)
    (wm : String → Option String) (xm : XYMaps) :
    ∀ (tifs : List FPath) (fs : FS) (tr : List Ev) (nds : List FPath)
      (recl : List (FPath × FPath)) {fs' : FS} {tr' : List Ev} {nds' : List FPath}
      {recl' : List (FPath × FPath)} {err : Option Err},
      planLoop it gb path wm xm tifs fs tr nds recl = (fs', tr', nds', recl', err) →
      ∀ sd ∈ recl', sd ∈ recl ∨ sd.1 ∈ tifs := by
  intro tifs
  induction tifs with
  | nil =>
    intro fs tr nds recl fs' tr' nds' recl' err h sd hsd
    simp only [planLoop, Prod.mk.injEq] at h
    obtain ⟨-, -, -, hrecl, -⟩ := h
    subst hrecl
    exact Or.inl hsd
  | cons f rest ih =>
    intro fs tr nds recl fs' tr' nds' recl' err h sd hsd
    simp only [planLoop] at h
    split at h
    · simp only [Prod.mk.injEq] at h
      obtain ⟨-, -, -, hrecl, -⟩ := h
      subst hrecl
      exact Or.inl hsd
    · split at h
      · simp only [Prod.mk.injEq] at h
        obtain ⟨-, -, -, hrecl, -⟩ := h
        subst hrecl
        exact Or.inl hsd
      · split at h
        · simp only [Prod.mk.injEq] at h
          obtain ⟨-, -, -, hrecl, -⟩ := h
          subst hrecl
          exact Or.inl hsd
        · split at h
          · simp only [Prod.mk.injEq] at h
            obtain ⟨-, -, -, hrecl, -⟩ := h
            subst hrecl
            exact Or.inl hsd
          · split at h
            · simp only [Prod.mk.injEq] at h
              obtain ⟨-, -, -, hrecl, -⟩ := h
              subst hrecl
              exact Or.inl hsd
            · split at h
              · simp only [Prod.mk.injEq] at h
                obtain ⟨-, -, -, hrecl, -⟩ := h
                subst hrecl
                exact Or.inl hsd
              · have := ih _ _ _ _ h sd hsd
                rcases this with hmem | hmem
                · rcases List.mem_append.1 hmem with hmem' | hmem'
                  · exact Or.inl hmem'
                  · simp only [List.mem_singleton] at hmem'
                    subst hmem'
                    exact Or.inr (by simp)
                · exact Or.inr (List.mem_cons_of_mem _ hmem)

/-- C5: the validation guards for field-referencing grouping tokens are
swapped in the source: on an image type with a timepoint marker but no
stitch-tile marker (`isTimelapse = true`, `isStitch = false`), requesting `T`
is rejected with `IncorrectGroupbyError` even though the timepoint field is
present, and requesting `stitch` is accepted even though the stitch field is
absent; dually on a stitch-only image type.  This contradicts the claimed
"T is rejected iff no timepoint marker, stitch iff no stitch-tile marker"
(the `Z` guard alone is correct). -/
theorem groupby_guard_swap :
    validateGroupby ["T"] ⟨false, true, false⟩ = some Err.incorrectGroupby ∧
    validateGroupby ["stitch"] ⟨false, true, false⟩ = none ∧
    validateGroupby ["T"] ⟨false, false, true⟩ = none ∧
    validateGroupby ["stitch"] ⟨false, false, true⟩ = some Err.incorrectGroupby ∧
    validateGroupby ["Z"] ⟨false, true, true⟩ = some Err.incorrectGroupby ∧
    validateGroupby ["Z"] ⟨true, false, false⟩ = none := by
  decide

/-- C8: on a directory with no `.tif` file below it, `matchImgType` raises the
built-in `NameError` (the classifying `for`-loop body never runs, so
`isZstack` is unbound) — there is no `NoImagesFound` error class anywhere in
the source. -/
theorem matchImgType_empty_raises_nameError :
    matchImgType [Entry.dir ["g"]] ["g"] = .error .nameError := rfl

/-- C6 counterexample: for grouping `['natural']` the destination differs from
grouping `['cond', 'XY']` — `natural` appends the channel subdirectory. -/
theorem natural_ne_condXY :
    getGroupbyPath ["b"] ["natural"] ⟨false, false, false⟩ "ctrl" "A01"
        ⟨"Image", none, "01", none, none, "DAPI"⟩ ≠
      getGroupbyPath ["b"] ["cond", "XY"] ⟨false, false, false⟩ "ctrl" "A01"
        ⟨"Image", none, "01", none, none, "DAPI"⟩ := by
  decide

/-- C6 (amended): grouping `['cond', 'XY']` yields exactly
`basePath/condition/(uniqueLabel_condition)`, while grouping `['natural']`
yields that same path extended by the stitch segment (when the stitch flag is
set), the Z segment (when the Z flag is set) and always the channel segment —
so the two destinations are never equal. -/
theorem natural_extends_condXY (path : FPath) (it : ImgType) (w u : String)
    (m : MGroups) (sv zv : String)
    (hs : m.stitchval = some sv) (hz : m.zval = some zv) :
    getGroupbyPath path ["cond", "XY"] it w u m = some (path ++ [w, u ++ "_" ++ w]) ∧
    getGroupbyPath path ["natural"] it w u m =
      some ((path ++ [w, u ++ "_" ++ w]) ++
        (if it.isStitch then ["stitch" ++ sv] else []) ++
        (if it.isZstack then [zv] else []) ++ [m.chval]) := by
  constructor
  · simp [getGroupbyPath]
  · cases hS : it.isStitch <;> cases hZ : it.isZstack <;>
      simp [getGroupbyPath, hs, hz, hS, hZ]

/-- C6 witness: the amended statement evaluated on a concrete input. -/
theorem natural_extends_condXY_witness :
    getGroupbyPath ["b"] ["cond", "XY"] ⟨true, false, true⟩ "c" "A01"
        ⟨"Image", none, "01", some "00045", some "Z3", "GFP"⟩ =
      some (["b"] ++ ["c", "A01" ++ "_" ++ "c"]) ∧
    getGroupbyPath ["b"] ["natural"] ⟨true, false, true⟩ "c" "A01"
        ⟨"Image", none, "01", some "00045", some "Z3", "GFP"⟩ =
      some ((["b"] ++ ["c", "A01" ++ "_" ++ "c"]) ++
        (if (ImgType.mk true false true).isStitch then ["stitch" ++ "00045"] else []) ++
        (if (ImgType.mk true false true).isZstack then ["Z3"] else []) ++ ["GFP"]) :=
  natural_extends_condXY ["b"] ⟨true, false, true⟩ "c" "A01"
    ⟨"Image", none, "01", some "00045", some "Z3", "GFP"⟩ "00045" "Z3" rfl rfl

/-- C3: after a successful move transaction (which persists `record.json`),
invoking `moveFiles` again does not fail with `RecordExistsError`: the
validation looks for a leftover `record.txt` while the record was persisted as
`record.json`, so the stale-record check passes and the second invocation
instead crashes with `FileExistsError` when re-creating the `unmoved`
directory. -/
theorem second_move_not_recordExists :
    sampleMove1.out = .ok ∧
    existsP sampleMove1.fs ["g", "record.json"] = true ∧
    (moveFiles ["g"] sampleWM "TS2" sampleMove1.fs ["cond"]).out =
      .raised .fileExists := by
  decide

/-- C1 counterexample: on a tree where the computed destination
`g/ctrl/Image_A01(2)_ctrl_GFP.tif` already exists on disk, the transaction
does not abort with `DestExistsError` and does not leave the filesystem
unchanged: the pre-existing destination file is itself swept up by the
`rglob('*.tif')` scan, fails the filename pattern, and the run dies with the
built-in `AttributeError` (from `None.group`) after the `unmoved` directory
has already been created. -/
theorem collision_not_unchanged :
    collideMove.out = .raised .attributeError ∧
    existsP collideFS ["g", "unmoved"] = false ∧
    existsP collideMove.fs ["g", "unmoved"] = true := by
  decide

/-- C1 (amended, part of the corrected statement): the collision check is
interleaved with execution — each destination is tested only just before its
own move — so whenever a run does abort with `DestExistsError`, the record
file has already been persisted (provided no `record.json` pre-existed, which
nothing validates).  Together with `collision_not_unchanged` this replaces the
claimed "checked exhaustively before any mutation, filesystem left completely
unchanged". -/
theorem destExists_implies_record_written (path : FPath)
    (wm : String → Option String) (now : String) (fs : FS) (gb : List String)
    (hrec : existsP fs (path ++ ["record.json"]) = false)
    (hout : (moveFiles path wm now fs gb).out = .raised .destExists) :
    existsP (moveFiles path wm now fs gb).fs (path ++ ["record.json"]) = true := by
  unfold moveFiles at hout ⊢
  cases hM : matchImgType fs path with
  | error e =>
    have he := matchImgType_error hM
    subst he
    rw [hM] at hout
    simp at hout
  | ok it =>
    rw [hM] at hout
    dsimp only at hout ⊢
    cases hV : validateGroupby gb it with
    | some e =>
      rw [hV] at hout
      simp at hout
    | none =>
      rw [hV] at hout
      dsimp only at hout ⊢
      cases hT : existsP fs (path ++ ["record.txt"]) with
      | true =>
        rw [hT] at hout
        simp at hout
      | false =>
        rw [hT] at hout
        simp only [Bool.false_eq_true, if_false] at hout ⊢
        simp only [moveFilesBody] at hout ⊢
        cases hmk : mkdirOp fs (path ++ ["unmoved"]) with
        | error e =>
          rw [hmk] at hout
          dsimp only at hout
          have := mkdirOp_error hmk
          simp at hout
          rcases this with h' | h' <;> simp [hout] at h'
        | ok fs1 =>
          rw [hmk] at hout
          dsimp only at hout ⊢
          rcases hP : planLoop it gb path wm (mapXYtoWell fs1 path)
              (rglobTifs fs1 path) fs1 [Ev.mkdirEv (path ++ ["unmoved"])]
              [path ++ ["unmoved"]] [] with ⟨fs2, tr2, nds2, recl, err⟩
          cases err with
          | some e =>
            rw [hP] at hout
            dsimp only at hout
            have := planLoop_error it gb path wm _ _ _ _ _ _ hP
            simp at hout
            rcases this with h' | h' | h' | h' | h' | h' <;> simp [hout] at h'
          | none =>
            rw [hP] at hout
            dsimp only at hout ⊢
            cases hW : writeRecordOp fs2 path
                ⟨now, ((childNames fs path).filter (fun n => n ≠ ".DS_Store")).map
                  (fun n => (path ++ [n], path ++ ["unmoved"] ++ [n])), recl, nds2⟩ with
            | error e =>
              have := writeRecordOp_error hW
              subst this
              rw [hW] at hout
              simp at hout
            | ok fs3 =>
              rw [hW] at hout
              dsimp only at hout ⊢
              apply execPhase_exists (writeRecordOp_exists hW)
              · intro sd hsd
                rcases planLoop_recl it gb path wm _ _ _ _ _ _ hP sd hsd with h0 | htif
                · simp at h0
                · obtain ⟨hu, ht⟩ := rglobTifs_mem htif
                  refine not_prefixOf_append_singleton _ hu ?_
                  intro hcontra
                  rw [hcontra] at ht
                  simp [nameEndsTif, isSuffixL] at ht
              · intro sd hsd
                simp only [List.mem_map] at hsd
                obtain ⟨n, hn, rfl⟩ := hsd
                have hn' : n ∈ childNames fs path := (List.mem_filter.1 hn).1
                have hex := childNames_exists hn'
                by_contra hc
                rw [Bool.not_eq_false] at hc
                have : n = "record.json" := by
                  have hpre := (List.isPrefixOf_iff_prefix).1 hc
                  obtain ⟨t, ht⟩ := hpre
                  rw [List.append_assoc] at ht
                  have := List.append_cancel_left ht
                  cases t with
                  | nil =>
                    simp only [List.append_nil] at this
                    injection this with h1 _
                  | cons a t' =>
                    have hlen := congrArg List.length this
                    simp at hlen
                subst this
                rw [hex] at hrec
                exact absurd hrec (by simp)

/-- C1 witness: the amended statement applied to the concrete duplicate
destination run `dupDestMove`. -/
theorem destExists_implies_record_written_witness :
    existsP dupDestMove.fs (["g"] ++ ["record.json"]) = true :=
  destExists_implies_record_written ["g"] sampleWM "TS" dupDestFS ["cond"]
    (by decide) (by decide)

/-- C4 counterexample: in a successful move transaction, directories are
created before the record is persisted: the prefix of the trace preceding the
record write contains directory-creation events. -/
theorem mkdir_before_record :
    sampleMove1.out = .ok ∧
    ((beforeRecord sampleMove1.tr).all (fun e => !e.isMkdir)) = false := by
  decide

/-- C7 counterexample: the grouping validation error for `['none', 'cond']` is
caught by the `try/except RuntimeError` block inside `moveFiles` (printed,
normal return, filesystem untouched) instead of propagating to the caller. -/
theorem groupby_error_caught_not_raised :
    (moveFiles ["g"] sampleWM "TS" sampleFS ["none", "cond"]).out =
      .caught .incorrectGroupby ∧
    (moveFiles ["g"] sampleWM "TS" sampleFS ["none", "cond"]).fs = sampleFS := by
  decide

theorem execPhase_error {recl unmoved : List (FPath × FPath)} {fs3 : FS}
    {tr3 : List Ev} {e : Err}
    (h : (execPhase recl unmoved fs3 tr3).out = .raised e) :
    e = .destExists ∨ e = .osError := by
  unfold execPhase at h
  split at h
  · rename_i fs4 tr4 e2 heq
    dsimp only at h
    injection h with h'
    subst h'
    exact execMoves_error recl fs3 tr3 heq
  · rename_i fs4 tr4 heq
    split at h
    · rename_i fs5 tr5 e2 heq2
      dsimp only at h
      injection h with h'
      subst h'
      exact execMoves_error unmoved fs4 tr4 heq2
    · simp at h

/-- The shape of every `moveFiles` trace: either the run never reaches the
record write and the trace consists of directory creations only, or the trace
is directory creations, then the record write, then moves only. -/
theorem moveFiles_tr_shape (path : FPath) (wm : String → Option String)
    (now : String) (fs : FS) (gb : List String) :
    (∃ pre, (moveFiles path wm now fs gb).tr = pre ∧ pre.all Ev.isMkdir = true) ∨
    (∃ pre post, (moveFiles path wm now fs gb).tr =
        pre ++ [Ev.wroteRecord (path ++ ["record.json"])] ++ post ∧
      pre.all Ev.isMkdir = true ∧ post.all Ev.isMove = true) := by
  unfold moveFiles
  cases hM : matchImgType fs path with
  | error e => exact Or.inl ⟨[], rfl, rfl⟩
  | ok it =>
    dsimp only
    cases hV : validateGroupby gb it with
    | some e => exact Or.inl ⟨[], rfl, rfl⟩
    | none =>
      dsimp only
      cases hT : existsP fs (path ++ ["record.txt"]) with
      | true => exact Or.inl ⟨[], rfl, rfl⟩
      | false =>
        simp only [Bool.false_eq_true, if_false]
        simp only [moveFilesBody]
        cases hmk : mkdirOp fs (path ++ ["unmoved"]) with
        | error e => exact Or.inl ⟨[], rfl, rfl⟩
        | ok fs1 =>
          dsimp only
          rcases hP : planLoop it gb path wm (mapXYtoWell fs1 path)
              (rglobTifs fs1 path) fs1 [Ev.mkdirEv (path ++ ["unmoved"])]
              [path ++ ["unmoved"]] [] with ⟨fs2, tr2, nds2, recl, err⟩
          obtain ⟨extraP, hPtr, haP⟩ := planLoop_tr it gb path wm
            (mapXYtoWell fs1 path) (rglobTifs fs1 path) fs1
            [Ev.mkdirEv (path ++ ["unmoved"])] [path ++ ["unmoved"]] []
          rw [hP] at hPtr
          dsimp only at hPtr
          have htr2 : tr2.all Ev.isMkdir = true := by
            rw [hPtr]
            simp [List.all_append, haP, Ev.isMkdir]
          cases err with
          | some e => exact Or.inl ⟨tr2, rfl, htr2⟩
          | none =>
            dsimp only
            cases hW : writeRecordOp fs2 path
                ⟨now, ((childNames fs path).filter (fun n => n ≠ ".DS_Store")).map
                  (fun n => (path ++ [n], path ++ ["unmoved"] ++ [n])), recl, nds2⟩ with
            | error e => exact Or.inl ⟨tr2, rfl, htr2⟩
            | ok fs3 =>
              dsimp only
              right
              obtain ⟨extraE, hEtr, haE⟩ := execPhase_tr recl
                (((childNames fs path).filter (fun n => n ≠ ".DS_Store")).map
                  (fun n => (path ++ [n], path ++ ["unmoved"] ++ [n]))) fs3
                (tr2 ++ [Ev.wroteRecord (path ++ ["record.json"])])
              exact ⟨tr2, extraE, by rw [hEtr], htr2, haE⟩

/-- C4 counterexample is `mkdir_before_record` below; this is the amended
claim: in every run of `moveFiles`, the record write separates directory
creation from file moves — before the record is persisted the trace contains
only directory creations (in particular, no file has been moved before the
record exists), and from the record write on, no further directory is
created.  This replaces the claimed "no directory is created ... before the
record file has been persisted", which fails (`unmoved/` and all destination
directories are created first). -/
theorem record_between_mkdirs_and_moves (path : FPath)
    (wm : String → Option String) (now : String) (fs : FS) (gb : List String) :
    ((beforeRecord (moveFiles path wm now fs gb).tr).all Ev.isMkdir = true) ∧
    ((fromRecord (moveFiles path wm now fs gb).tr).all (fun e => !e.isMkdir) = true) := by
  rcases moveFiles_tr_shape path wm now fs gb with ⟨pre, htr, hall⟩ |
    ⟨pre, post, htr, hpre, hpost⟩
  · rw [htr]
    constructor
    · unfold beforeRecord
      rw [takeWhile_all_eq (all_mkdir_not_record hall)]
      exact hall
    · unfold fromRecord
      rw [dropWhile_all_eq (all_mkdir_not_record hall)]
      rfl
  · rw [htr]
    have hpre' := all_mkdir_not_record hpre
    constructor
    · unfold beforeRecord
      rw [List.append_assoc, takeWhile_append_all hpre']
      have : (([Ev.wroteRecord (path ++ ["record.json"])] ++ post).takeWhile
          (fun e => !e.isRecordWrite)) = [] := by
        simp [List.takeWhile_cons, Ev.isRecordWrite]
      rw [this, List.append_nil]
      exact hpre
    · unfold fromRecord
      rw [List.append_assoc, dropWhile_append_all hpre']
      have : (([Ev.wroteRecord (path ++ ["record.json"])] ++ post).dropWhile
          (fun e => !e.isRecordWrite)) =
          [Ev.wroteRecord (path ++ ["record.json"])] ++ post := by
        simp [List.dropWhile_cons, Ev.isRecordWrite]
      rw [this]
      simp only [List.all_append, List.all_cons, Bool.and_eq_true]
      exact ⟨⟨by simp [Ev.isMkdir], rfl⟩, all_move_not_mkdir hpost⟩

/-- C7 (amended): the two validation errors of the taxonomy —
`IncorrectGroupbyError` (the source's name for `InvalidGroupingOption`) and
`RecordExistsError` — are exactly the errors caught by the
`try/except RuntimeError` block inside `moveFiles`: they are printed and the
function returns normally with the filesystem untouched (so the process exits
zero); they are never raised to the caller.  All errors that do propagate
(`WellNotFound`, `DestExistsError` and the built-in exceptions) are outside
that block. -/
theorem taxonomy_errors_not_propagated (path : FPath)
    (wm : String → Option String) (now : String) (fs : FS) (gb : List String) :
    (∀ e : Err, (moveFiles path wm now fs gb).out = .raised e →
      e ≠ Err.incorrectGroupby ∧ e ≠ Err.recordExists) ∧
    (∀ e : Err, (moveFiles path wm now fs gb).out = .caught e →
      (e = Err.incorrectGroupby ∨ e = Err.recordExists) ∧
      (moveFiles path wm now fs gb).fs = fs ∧
      (moveFiles path wm now fs gb).tr = []) := by
  unfold moveFiles
  cases hM : matchImgType fs path with
  | error e =>
    have he := matchImgType_error hM
    subst he
    constructor
    · intro e' h
      dsimp only at h
      injection h with h'
      subst h'
      exact ⟨by simp, by simp⟩
    · intro e' h
      dsimp only at h
      simp at h
  | ok it =>
    dsimp only
    cases hV : validateGroupby gb it with
    | some e =>
      have he := validateGroupby_err hV
      subst he
      constructor
      · intro e' h
        dsimp only at h
        simp at h
      · intro e' h
        dsimp only at h
        injection h with h'
        subst h'
        exact ⟨Or.inl rfl, rfl, rfl⟩
    | none =>
      dsimp only
      cases hT : existsP fs (path ++ ["record.txt"]) with
      | true =>
        constructor
        · intro e' h
          simp at h
        · intro e' h
          simp at h
          subst h
          exact ⟨Or.inr rfl, rfl, rfl⟩
      | false =>
        simp only [Bool.false_eq_true, if_false]
        simp only [moveFilesBody]
        cases hmk : mkdirOp fs (path ++ ["unmoved"]) with
        | error e =>
          rcases mkdirOp_error hmk with he | he <;> subst he
          all_goals constructor
          all_goals intro e' h
          all_goals dsimp only at h
          · injection h with h'
            subst h'
            exact ⟨by simp, by simp⟩
          · simp at h
          · injection h with h'
            subst h'
            exact ⟨by simp, by simp⟩
          · simp at h
        | ok fs1 =>
          dsimp only
          rcases hP : planLoop it gb path wm (mapXYtoWell fs1 path)
              (rglobTifs fs1 path) fs1 [Ev.mkdirEv (path ++ ["unmoved"])]
              [path ++ ["unmoved"]] [] with ⟨fs2, tr2, nds2, recl, err⟩
          cases err with
          | some e =>
            constructor
            · intro e' h
              dsimp only at h
              injection h with h'
              subst h'
              rcases planLoop_error it gb path wm _ _ _ _ _ _ hP with
                h' | h' | h' | h' | h' | h' <;> subst h' <;> exact ⟨by simp, by simp⟩
            · intro e' h
              dsimp only at h
              simp at h
          | none =>
            dsimp only
            cases hW : writeRecordOp fs2 path
                ⟨now, ((childNames fs path).filter (fun n => n ≠ ".DS_Store")).map
                  (fun n => (path ++ [n], path ++ ["unmoved"] ++ [n])), recl, nds2⟩ with
            | error e =>
              have he := writeRecordOp_error hW
              subst he
              constructor
              · intro e' h
                dsimp only at h
                injection h with h'
                subst h'
                exact ⟨by simp, by simp⟩
              · intro e' h
                dsimp only at h
                simp at h
            | ok fs3 =>
              dsimp only
              constructor
              · intro e' h
                rcases execPhase_error h with h' | h' <;> subst h' <;>
                  exact ⟨by simp, by simp⟩
              · intro e' h
                unfold execPhase at h
                split at h
                · dsimp only at h
                  simp at h
                · split at h
                  · dsimp only at h
                    simp at h
                  · simp at h

theorem mapXYtoWellList_concat (l : List (String × String)) (e : String × String) :
    mapXYtoWellList (l ++ [e]) = xyStep (mapXYtoWellList l) e := by
  simp [mapXYtoWellList, List.foldl_append]

theorem wellOccs_concat (l : List (String × String)) (xy0 w0 w : String) :
    wellOccs (l ++ [(xy0, w0)]) w =
      wellOccs l w ++ (if w0 = w then [xy0] else []) := by
  simp only [wellOccs, List.filter_append, List.map_append]
  congr 1
  by_cases h : w0 = w
  · subst h
    simp [List.filter_cons]
  · simp [List.filter_cons, h]

theorem xyWell_concat_old {l : List (String × String)} {xy w : String}
    (e : String × String) (h : xyWell l xy = some w) :
    xyWell (l ++ [e]) xy = some w := by
  simp only [xyWell, List.find?_append] at h ⊢
  cases hf : l.find? (fun p => p.1 = xy) with
  | none => simp [hf] at h
  | some q =>
    rw [hf] at h
    simp [hf, Option.or, h]

theorem xyWell_eq_none_iff {l : List (String × String)} {xy : String} :
    xyWell l xy = none ↔ xy ∉ l.map Prod.fst := by
  simp only [xyWell, Option.map_eq_none', List.find?_eq_none, List.mem_map,
    decide_eq_true_eq]
  constructor
  · rintro h ⟨e, he, rfl⟩
    exact h e he rfl
  · intro h e he heq
    exact h ⟨e, he, heq⟩

theorem xyWell_concat_none {l : List (String × String)} {xy xy0 w0 : String}
    (h : xyWell l xy = none) (hne : xy ≠ xy0) :
    xyWell (l ++ [(xy0, w0)]) xy = none := by
  rw [xyWell_eq_none_iff] at h ⊢
  simp only [List.map_append, List.mem_append, List.map_cons, List.map_nil,
    List.mem_singleton]
  rintro (hc | hc)
  · exact h hc
  · exact hne hc

theorem xyWell_concat_self {l : List (String × String)} {xy0 w0 : String}
    (h : xyWell l xy0 = none) :
    xyWell (l ++ [(xy0, w0)]) xy0 = some w0 := by
  simp only [xyWell, Option.map_eq_none'] at h
  simp [xyWell, List.find?_append, h, Option.or, List.find?]

theorem xyWell_concat_cases {l : List (String × String)} {xy xy0 w0 w : String}
    (h : xyWell (l ++ [(xy0, w0)]) xy = some w) :
    xyWell l xy = some w ∨ (xyWell l xy = none ∧ xy = xy0 ∧ w = w0) := by
  simp only [xyWell, List.find?_append] at h
  cases hf : l.find? (fun p => p.1 = xy) with
  | some q =>
    rw [hf] at h
    simp only [Option.or, Option.map_some'] at h
    exact Or.inl (by simp [xyWell, hf, h])
  | none =>
    rw [hf] at h
    simp only [Option.or] at h
    right
    refine ⟨by simp [xyWell, hf], ?_⟩
    simp only [List.find?] at h
    by_cases hx : xy0 = xy
    · subst hx
      simp at h
      exact ⟨rfl, h.symm⟩
    · simp [hx] at h

theorem mem_occs_mem_keys {l : List (String × String)} {xy w : String}
    (h : xy ∈ wellOccs l w) : xy ∈ l.map Prod.fst := by
  simp only [wellOccs, List.mem_map, List.mem_filter] at h
  obtain ⟨e, ⟨he, -⟩, rfl⟩ := h
  exact List.mem_map_of_mem _ he

theorem occs_nodup {l : List (String × String)}
    (hnd : (l.map Prod.fst).Nodup) (w : String) : (wellOccs l w).Nodup := by
  refine List.Nodup.sublist ?_ hnd
  exact List.Sublist.map _ (List.filter_sublist l)

theorem mem_occs_xyWell {l : List (String × String)} {xy w : String}
    (hnd : (l.map Prod.fst).Nodup) (h : xy ∈ wellOccs l w) :
    xyWell l xy = some w := by
  simp only [wellOccs, List.mem_map, List.mem_filter, decide_eq_true_eq] at h
  obtain ⟨e, ⟨he, hw⟩, hxy⟩ := h
  cases hff : l.find? (fun p => p.1 = xy) with
  | none =>
    rw [List.find?_eq_none] at hff
    exact absurd (by simp [hxy] : decide (e.1 = xy) = true) (hff e he)
  | some q =>
    have hq := List.find?_some hff
    have hqm := List.mem_of_find?_eq_some hff
    simp only [decide_eq_true_eq] at hq
    have : q = e := by
      have hinj := List.inj_on_of_nodup_map hnd
      exact hinj hqm he (by rw [hq, hxy])
    simp [xyWell, hff, this, hw]

theorem xyWell_mem_occs {l : List (String × String)} {xy w : String}
    (h : xyWell l xy = some w) : xy ∈ wellOccs l w := by
  simp only [xyWell] at h
  cases hf : l.find? (fun p => p.1 = xy) with
  | none => rw [hf] at h; simp at h
  | some q =>
    rw [hf] at h
    simp only [Option.map_some', Option.some.injEq] at h
    have hq1 := List.find?_some hf
    have hqm := List.mem_of_find?_eq_some hf
    simp only [decide_eq_true_eq] at hq1
    simp only [wellOccs, List.mem_map, List.mem_filter, decide_eq_true_eq]
    exact ⟨q, ⟨hqm, h⟩, hq1⟩

theorem indexOf_concat_self {x : String} :
    ∀ {l : List String}, x ∉ l → List.indexOf x (l ++ [x]) = l.length := by
  intro l
  induction l with
  | nil => intro h; simp
  | cons a l ih =>
    intro h
    simp only [List.mem_cons, not_or] at h
    rw [List.cons_append, List.indexOf_cons_ne _ (fun hc => h.1 hc.symm), ih h.2]
    simp

theorem xyStep_new {st : XYMaps} {xy0 w0 : String} (h : w0 ∉ st.wellList) :
    xyStep st (xy0, w0) =
      ⟨updF st.toWell xy0 w0, updF st.toWellUnique xy0 w0,
        updF st.wellToXYUnique w0 xy0, st.wellList ++ [w0], st.dups⟩ := by
  simp [xyStep, h]

theorem xyStep_firstDup {st : XYMaps} {xy0 w0 : String} (h : w0 ∈ st.wellList)
    (hd : st.dups w0 = none) :
    xyStep st (xy0, w0) =
      ⟨updF st.toWell xy0 w0,
        updF (updF st.toWellUnique ((st.wellToXYUnique w0).getD "") (dupLabel w0 1))
          xy0 (dupLabel w0 2),
        st.wellToXYUnique, st.wellList, updN st.dups w0 2⟩ := by
  simp [xyStep, h, hd]

theorem xyStep_nthDup {st : XYMaps} {xy0 w0 : String} {n : Nat}
    (h : w0 ∈ st.wellList) (hd : st.dups w0 = some n) :
    xyStep st (xy0, w0) =
      ⟨updF st.toWell xy0 w0,
        updF st.toWellUnique xy0 (dupLabel w0 (n + 1)),
        st.wellToXYUnique, st.wellList, updN st.dups w0 (n + 1)⟩ := by
  simp [xyStep, h, hd]

theorem updF_self (f : String → Option String) (k v : String) :
    updF f k v k = some v := by
  simp [updF]

theorem updF_ne (f : String → Option String) (k v x : String) (h : x ≠ k) :
    updF f k v x = f x := by
  simp [updF, h]

theorem updN_self (f : String → Option Nat) (k : String) (v : Nat) :
    updN f k v k = some v := by
  simp [updN]

theorem updN_ne (f : String → Option Nat) (k : String) (v : Nat) (x : String)
    (h : x ≠ k) : updN f k v x = f x := by
  simp [updN, h]

theorem wellOccs_concat_same (l : List (String × String)) (xy0 w0 : String) :
    wellOccs (l ++ [(xy0, w0)]) w0 = wellOccs l w0 ++ [xy0] := by
  rw [wellOccs_concat, if_pos rfl]

theorem wellOccs_concat_ne (l : List (String × String)) (xy0 w0 w : String)
    (h : w0 ≠ w) : wellOccs (l ++ [(xy0, w0)]) w = wellOccs l w := by
  rw [wellOccs_concat, if_neg h, List.append_nil]

/-- The resolver state after scanning any marker list with distinct position
names satisfies the full characterization `XYInv`. -/
theorem xyInv_holds : ∀ (l : List (String × String)),
    (l.map Prod.fst).Nodup → XYInv l (mapXYtoWellList l) := by
  intro l
  induction l using List.reverseRecOn with
  | nil =>
    intro _
    refine ⟨?_, ?_, ?_, ?_, ?_⟩
    · intro w; simp [mapXYtoWellList, initXY, wellOccs]
    · intro w; simp [mapXYtoWellList, initXY, wellOccs]
    · intro w; simp [mapXYtoWellList, initXY, wellOccs]
    · intro xy w h; simp [xyWell] at h
    · intro xy _; simp [mapXYtoWellList, initXY]
  | append_singleton l e ih =>
    obtain ⟨xy0, w0⟩ := e
    intro hnd
    rw [List.map_append, List.map_cons, List.map_nil, List.nodup_append] at hnd
    obtain ⟨hnd1, -, hdisj⟩ := hnd
    have hnotin : xy0 ∉ l.map Prod.fst := fun hc => hdisj hc (by simp)
    have hfresh : xyWell l xy0 = none := xyWell_eq_none_iff.2 hnotin
    obtain ⟨i1, i2, i3, i4, i5⟩ := ih hnd1
    rw [mapXYtoWellList_concat]
    have hfreshcase : ∀ xy, xyWell (l ++ [(xy0, w0)]) xy = none →
        xy ≠ xy0 ∧ xyWell l xy = none := by
      intro xy hnone'
      have hne : xy ≠ xy0 := by
        intro h
        subst h
        rw [xyWell_concat_self hfresh] at hnone'
        simp at hnone'
      refine ⟨hne, ?_⟩
      cases hxy : xyWell l xy with
      | none => rfl
      | some w => rw [xyWell_concat_old _ hxy] at hnone'; simp at hnone'
    by_cases hseen : w0 ∈ (mapXYtoWellList l).wellList
    · cases hdup : (mapXYtoWellList l).dups w0 with
      | none =>
        -- first repeat of w0
        rw [xyStep_firstDup hseen hdup]
        have hoccne := (i1 w0).1 hseen
        have hlen1 : ¬ 2 ≤ (wellOccs l w0).length := by
          intro hc
          rw [i2 w0, if_pos hc] at hdup
          simp at hdup
        obtain ⟨first, hocc⟩ : ∃ a, wellOccs l w0 = [a] := by
          cases hoc : wellOccs l w0 with
          | nil => exact absurd hoc hoccne
          | cons a rest =>
            cases rest with
            | nil => exact ⟨a, rfl⟩
            | cons b r2 =>
              exfalso
              apply hlen1
              rw [hoc]
              simp only [List.length_cons]
              omega
        have hfirstXY : (mapXYtoWellList l).wellToXYUnique w0 = some first := by
          rw [i3 w0, hocc]; rfl
        have hfirst_well : xyWell l first = some w0 :=
          mem_occs_xyWell hnd1 (by rw [hocc]; simp)
        have hfirst_ne : first ≠ xy0 := by
          intro h
          subst h
          rw [hfresh] at hfirst_well
          simp at hfirst_well
        refine ⟨?_, ?_, ?_, ?_, ?_⟩ <;> dsimp only
        · intro w
          by_cases hw : w0 = w
          · subst hw
            rw [wellOccs_concat_same]
            simp [hseen, hocc]
          · rw [wellOccs_concat_ne _ _ _ _ hw]
            exact i1 w
        · intro w
          by_cases hw : w0 = w
          · subst hw
            rw [wellOccs_concat_same, updN_self, hocc]
            rfl
          · rw [wellOccs_concat_ne _ _ _ _ hw,
              updN_ne _ _ _ _ (fun h => hw h.symm)]
            exact i2 w
        · intro w
          by_cases hw : w0 = w
          · subst hw
            rw [wellOccs_concat_same, hocc, hfirstXY]
            rfl
          · rw [wellOccs_concat_ne _ _ _ _ hw]
            exact i3 w
        · intro xy w hxyw
          rcases xyWell_concat_cases hxyw with hold | ⟨hnone, rfl, rfl⟩
          · have hne : xy ≠ xy0 := by
              intro h
              subst h
              rw [hfresh] at hold
              simp at hold
            rw [hfirstXY]
            simp only [Option.getD_some]
            rw [updF_ne _ _ _ _ hne]
            by_cases hw : w0 = w
            · subst hw
              have hmem := xyWell_mem_occs hold
              rw [hocc] at hmem
              simp only [List.mem_singleton] at hmem
              subst hmem
              rw [updF_self, wellOccs_concat_same, hocc, List.singleton_append]
              simp only [uniqName, List.length_cons, List.length_nil]
              rw [if_neg (by omega), List.indexOf_cons_self]
            · rw [updF_ne _ _ _ _ (by
                intro h
                subst h
                rw [hold] at hfirst_well
                injection hfirst_well with hww
                exact hw hww.symm),
                wellOccs_concat_ne _ _ _ _ hw]
              exact i4 xy w hold
          · rw [updF_self, wellOccs_concat_same, hocc, List.singleton_append]
            simp only [uniqName, List.length_cons, List.length_nil]
            rw [if_neg (by omega), List.indexOf_cons_ne _ hfirst_ne,
              List.indexOf_cons_self]
        · intro xy hnone'
          obtain ⟨hne, hnone⟩ := hfreshcase xy hnone'
          have hnefirst : xy ≠ first := by
            intro h
            subst h
            rw [hnone] at hfirst_well
            simp at hfirst_well
          rw [hfirstXY]
          simp only [Option.getD_some]
          rw [updF_ne _ _ _ _ hne, updF_ne _ _ _ _ hnefirst]
          exact i5 xy hnone
      | some n =>
        -- subsequent repeat of w0
        rw [xyStep_nthDup hseen hdup]
        have hlen : (wellOccs l w0).length = n ∧ 2 ≤ n := by
          rw [i2 w0] at hdup
          by_cases hc : 2 ≤ (wellOccs l w0).length
          · rw [if_pos hc] at hdup
            injection hdup with hd2
            omega
          · rw [if_neg hc] at hdup
            simp at hdup
        have hx0occ : xy0 ∉ wellOccs l w0 := by
          intro hc
          have := mem_occs_xyWell hnd1 hc
          rw [hfresh] at this
          simp at this
        refine ⟨?_, ?_, ?_, ?_, ?_⟩ <;> dsimp only
        · intro w
          by_cases hw : w0 = w
          · subst hw
            rw [wellOccs_concat_same]
            simp [hseen]
          · rw [wellOccs_concat_ne _ _ _ _ hw]
            exact i1 w
        · intro w
          by_cases hw : w0 = w
          · subst hw
            rw [wellOccs_concat_same, updN_self, List.length_append,
              List.length_singleton, hlen.1]
            rw [if_pos (by omega)]
          · rw [wellOccs_concat_ne _ _ _ _ hw,
              updN_ne _ _ _ _ (fun h => hw h.symm)]
            exact i2 w
        · intro w
          by_cases hw : w0 = w
          · subst hw
            rw [wellOccs_concat_same, i3 w0]
            cases hoc : wellOccs l w0 with
            | nil =>
              rw [hoc] at hlen
              simp at hlen
              omega
            | cons a rest => simp
          · rw [wellOccs_concat_ne _ _ _ _ hw]
            exact i3 w
        · intro xy w hxyw
          rcases xyWell_concat_cases hxyw with hold | ⟨hnone, rfl, rfl⟩
          · have hne : xy ≠ xy0 := by
              intro h
              subst h
              rw [hfresh] at hold
              simp at hold
            rw [updF_ne _ _ _ _ hne]
            by_cases hw : w0 = w
            · subst hw
              rw [wellOccs_concat_same, i4 xy w0 hold]
              have hmem := xyWell_mem_occs hold
              simp only [uniqName, List.length_append, List.length_singleton]
              rw [if_neg (by omega), if_neg (by rw [hlen.1]; omega),
                List.indexOf_append_of_mem hmem]
            · rw [wellOccs_concat_ne _ _ _ _ hw]
              exact i4 xy w hold
          · rw [updF_self, wellOccs_concat_same]
            simp only [uniqName, List.length_append, List.length_singleton]
            rw [if_neg (by rw [hlen.1]; omega),
              indexOf_concat_self hx0occ, hlen.1]
        · intro xy hnone'
          obtain ⟨hne, hnone⟩ := hfreshcase xy hnone'
          rw [updF_ne _ _ _ _ hne]
          exact i5 xy hnone
    · -- first occurrence of w0
      rw [xyStep_new hseen]
      have hocc0 : wellOccs l w0 = [] := by
        by_contra hc
        exact hseen ((i1 w0).2 hc)
      refine ⟨?_, ?_, ?_, ?_, ?_⟩ <;> dsimp only
      · intro w
        by_cases hw : w0 = w
        · subst hw
          rw [wellOccs_concat_same, hocc0]
          simp
        · rw [wellOccs_concat_ne _ _ _ _ hw]
          constructor
          · intro h
            rcases List.mem_append.1 h with h | h
            · exact (i1 w).1 h
            · rw [List.mem_singleton] at h
              exact absurd h.symm hw
          · intro h
            exact List.mem_append.2 (Or.inl ((i1 w).2 h))
      · intro w
        by_cases hw : w0 = w
        · subst hw
          rw [wellOccs_concat_same, hocc0, i2 w0, hocc0]
          simp
        · rw [wellOccs_concat_ne _ _ _ _ hw]
          exact i2 w
      · intro w
        by_cases hw : w0 = w
        · subst hw
          rw [wellOccs_concat_same, hocc0, updF_self]
          rfl
        · rw [wellOccs_concat_ne _ _ _ _ hw,
            updF_ne _ _ _ _ (fun h => hw h.symm)]
          exact i3 w
      · intro xy w hxyw
        rcases xyWell_concat_cases hxyw with hold | ⟨hnone, rfl, rfl⟩
        · have hne : xy ≠ xy0 := by
            intro h
            subst h
            rw [hfresh] at hold
            simp at hold
          rw [updF_ne _ _ _ _ hne]
          by_cases hw : w0 = w
          · subst hw
            exfalso
            have := xyWell_mem_occs hold
            rw [hocc0] at this
            simp at this
          · rw [wellOccs_concat_ne _ _ _ _ hw]
            exact i4 xy w hold
        · rw [updF_self, wellOccs_concat_same, hocc0]
          simp [uniqName]
      · intro xy hnone'
        obtain ⟨hne, hnone⟩ := hfreshcase xy hnone'
        rw [updF_ne _ _ _ _ hne]
        exact i5 xy hnone


/-- C9: duplicate-well disambiguation.  For any source tree whose marker scan
has distinct position names, if the raw label `w` occurs at least twice, then
the position carrying the `k`-th occurrence of `w` (in encounter order of the
scan) is mapped by the Position Resolver to the unique label `w(k)`: the first
occurrence is retroactively relabelled `w(1)`, the second becomes `w(2)`, and
each subsequent repeat increments the counter. -/
theorem duplicate_well_disambiguation (fs : FS) (p : FPath) (w : String)
    (hnd : ((scanMarkers fs p).map Prod.fst).Nodup)
    (hdup : 2 ≤ (wellOccs (scanMarkers fs p) w).length) :
    ∀ (k : Nat) (hk : k < (wellOccs (scanMarkers fs p) w).length),
      (mapXYtoWell fs p).toWellUnique
          ((wellOccs (scanMarkers fs p) w).get ⟨k, hk⟩) =
        some (dupLabel w (k + 1)) := by
  intro k hk
  obtain ⟨-, -, -, i4, -⟩ := xyInv_holds (scanMarkers fs p) hnd
  have hmem : (wellOccs (scanMarkers fs p) w).get ⟨k, hk⟩ ∈
      wellOccs (scanMarkers fs p) w := List.get_mem _ _ hk
  have hxy := mem_occs_xyWell hnd hmem
  rw [mapXYtoWell, i4 _ _ hxy]
  rw [uniqName, if_neg (by omega)]
  rw [List.get_indexOf (occs_nodup hnd w) ⟨k, hk⟩]

/-- C9 witness: on the concrete tree `dupScanFS`, the resolver yields
`XY01 → A01(1)`, `XY05 → A01(2)`, `XY09 → A01(3)`. -/
theorem duplicate_well_disambiguation_witness :
    (mapXYtoWell dupScanFS ["g"]).toWellUnique "XY01" = some (dupLabel "A01" 1) ∧
    (mapXYtoWell dupScanFS ["g"]).toWellUnique "XY05" = some (dupLabel "A01" 2) ∧
    (mapXYtoWell dupScanFS ["g"]).toWellUnique "XY09" = some (dupLabel "A01" 3) :=
  ⟨duplicate_well_disambiguation dupScanFS ["g"] "A01" (by decide) (by decide)
      0 (by decide),
    duplicate_well_disambiguation dupScanFS ["g"] "A01" (by decide) (by decide)
      1 (by decide),
    duplicate_well_disambiguation dupScanFS ["g"] "A01" (by decide) (by decide)
      2 (by decide)⟩

/-- C7 witness: the amended statement applied to the concrete run with the
invalid grouping `['none', 'cond']`. -/
theorem taxonomy_errors_not_propagated_witness :
    (Err.incorrectGroupby = Err.incorrectGroupby ∨
      Err.incorrectGroupby = Err.recordExists) ∧
    (moveFiles ["g"] sampleWM "TS" sampleFS ["none", "cond"]).fs = sampleFS ∧
    (moveFiles ["g"] sampleWM "TS" sampleFS ["none", "cond"]).tr = [] :=
  (taxonomy_errors_not_propagated ["g"] sampleWM "TS" sampleFS
    ["none", "cond"]).2 Err.incorrectGroupby (by decide)

/-! ### C10: shape of the keys produced by `well_mapping` -/

/-- A character built as `'0' + r` for `r < 10` is a decimal digit. -/
lemma isDigitChar_ofNat (r : Nat) (hr : r < 10) :
    isDigitChar (Char.ofNat (48 + r)) = true := by
  interval_cases r <;> decide

/-- Every character emitted by `natDigitsAux` is a decimal digit. -/
lemma natDigitsAux_digits :
    ∀ fuel n, ∀ c ∈ natDigitsAux fuel n, isDigitChar c = true := by
  intro fuel
  induction fuel with
  | zero => intro n c hc; simp [natDigitsAux] at hc
  | succ f ih =>
    intro n c hc
    cases n with
    | zero => simp [natDigitsAux] at hc
    | succ m =>
      simp only [natDigitsAux] at hc
      rcases List.mem_append.mp hc with h | h
      · exact ih _ c h
      · rw [List.mem_singleton] at h
        subst h
        exact isDigitChar_ofNat _ (Nat.mod_lt _ (by norm_num))

/-- With positive fuel and a positive argument, `natDigitsAux` is nonempty. -/
lemma natDigitsAux_ne_nil (fuel n : Nat) (hn : 1 ≤ n) (hf : 1 ≤ fuel) :
    natDigitsAux fuel n ≠ [] := by
  cases fuel with
  | zero => omega
  | succ f =>
    cases n with
    | zero => omega
    | succ m => simp [natDigitsAux]

/-- The decimal representation consists of decimal digits. -/
lemma natToStrL_digits (n : Nat) : ∀ c ∈ natToStrL n, isDigitChar c = true := by
  intro c hc
  unfold natToStrL at hc
  split at hc
  · rw [List.mem_singleton] at hc; subst hc; decide
  · exact natDigitsAux_digits n n c hc

/-- The decimal representation is never empty. -/
lemma natToStrL_ne_nil (n : Nat) : natToStrL n ≠ [] := by
  unfold natToStrL
  split
  · simp
  · exact natDigitsAux_ne_nil n n (by omega) (by omega)

/-- `'{:02d}'` emits only decimal digits. -/
lemma pad2L_digits (n : Nat) : ∀ c ∈ pad2L n, isDigitChar c = true := by
  intro c hc
  unfold pad2L at hc
  split at hc
  · rcases List.mem_cons.mp hc with h | h
    · subst h; decide
    · exact natToStrL_digits n c h
  · exact natToStrL_digits n c hc

/-- `'{:02d}'` emits at least two characters (exactly two for `n ≤ 99`). -/
lemma pad2L_len (n : Nat) : 2 ≤ (pad2L n).length := by
  unfold pad2L
  split
  · have h1 : 0 < (natToStrL n).length :=
      List.length_pos.mpr (natToStrL_ne_nil n)
    simp only [List.length_cons]
    omega
  · rename_i h10
    unfold natToStrL
    rw [if_neg (by omega)]
    cases n with
    | zero => omega
    | succ m =>
      simp only [natDigitsAux]
      rw [List.length_append]
      have h1 : 0 < (natDigitsAux m ((m + 1) / 10)).length := by
        apply List.length_pos.mpr
        apply natDigitsAux_ne_nil
        · omega
        · omega
      simp only [List.length_singleton]
      omega

/-- Every formatted well name has the key shape. -/
lemma fmtKey_shaped (c : Char) (n : Nat) (hc : c ∈ rowChars) :
    keyShaped (fmtKey c n) :=
  ⟨c, pad2L n, rfl, hc, pad2L_digits n, pad2L_len n⟩

/-- `itc_mapping` lookups land in the row alphabet. -/
lemma rowGet_mem (r : Nat) : rowGet r ∈ rowChars := by
  unfold rowGet
  rcases Nat.lt_or_ge r 16 with h | h
  · interval_cases r <;> decide
  · have hlen : rowChars.length ≤ r := h
    rw [List.getD_eq_default _ _ hlen]
    decide

/-- A successful single-well parse yields a letter of the row alphabet. -/
lemma parseWellTok_row (cs : List Char) (c : Char) (n : Nat)
    (h : parseWellTok cs = some (c, n)) : c ∈ rowChars := by
  match cs with
  | [] => simp [parseWellTok] at h
  | c0 :: ds =>
    simp only [parseWellTok] at h
    split at h
    · rename_i hcond
      cases h
      exact hcond.1
    · exact Option.noConfusion h

/-- Every member of the row/column product is a formatted well name. -/
lemma mem_prodAux (cols : List Nat) :
    ∀ (rows : List Nat) (w : String),
      w ∈ rows.foldr
        (fun r acc => cols.map (fun col => fmtKey (rowGet r) col) ++ acc) [] →
      ∃ r col, w = fmtKey (rowGet r) col := by
  intro rows
  induction rows with
  | nil => intro w hw; simp at hw
  | cons r rs ih =>
    intro w hw
    simp only [List.foldr_cons] at hw
    rcases List.mem_append.mp hw with h | h
    · rcases List.mem_map.mp h with ⟨col, _, hcol⟩
      exact ⟨r, col, hcol.symm⟩
    · exact ih w h

/-- Every well produced by a valid token has the key shape. -/
lemma tokenWells_shaped (cs : List Char) (ws : List String)
    (h : tokenWells cs = .ok ws) : ∀ w ∈ ws, keyShaped w := by
  intro w hw
  unfold tokenWells at h
  cases hp : parseWellTok cs with
  | some cn =>
    obtain ⟨c, n⟩ := cn
    rw [hp] at h
    dsimp only at h
    cases h
    rw [List.mem_singleton] at hw
    subst hw
    exact fmtKey_shaped c n (parseWellTok_row cs c n hp)
  | none =>
    rw [hp] at h
    dsimp only at h
    cases hd : parseDualTok cs with
    | some pq =>
      obtain ⟨⟨c1, n1⟩, c2, n2⟩ := pq
      rw [hd] at h
      dsimp only at h
      cases h
      unfold prodWells at hw
      rcases mem_prodAux _ _ w hw with ⟨r, col, hrc⟩
      subst hrc
      exact fmtKey_shaped _ _ (rowGet_mem r)
    | none =>
      rw [hd] at h
      exact Except.noConfusion h

/-- `wells.add` preserves a property holding of both sides. -/
lemma foldl_addWell_shaped (P : String → Prop) :
    ∀ (wl ws : List String), (∀ w ∈ ws, P w) → (∀ w ∈ wl, P w) →
      ∀ w ∈ wl.foldl addWell ws, P w := by
  intro wl
  induction wl with
  | nil => intro ws h1 _ w hw; exact h1 w hw
  | cons a as ih =>
    intro ws h1 h2 w hw
    simp only [List.foldl_cons] at hw
    apply ih (addWell ws a) _ _ w hw
    · intro x hx
      unfold addWell at hx
      split at hx
      · exact h1 x hx
      · rcases List.mem_append.mp hx with h | h
        · exact h1 x h
        · rw [List.mem_singleton] at h
          rw [h]
          exact h2 a (List.mem_cons_self a as)
    · intro x hx
      exact h2 x (List.mem_cons_of_mem a hx)

/-- All wells accumulated by the token loop have the key shape. -/
lemma collectWells_shaped :
    ∀ (ts : List (List Char)) (ws out : List String),
      (∀ w ∈ ws, keyShaped w) → collectWells ts ws = .ok out →
      ∀ w ∈ out, keyShaped w := by
  intro ts
  induction ts with
  | nil =>
    intro ws out h1 h w hw
    simp only [collectWells] at h
    cases h
    exact h1 w hw
  | cons t ts ih =>
    intro ws out h1 h w hw
    simp only [collectWells] at h
    cases htw : tokenWells t with
    | error e => rw [htw] at h; exact Except.noConfusion h
    | ok wl =>
      rw [htw] at h
      dsimp only at h
      exact ih (wl.foldl addWell ws) out
        (foldl_addWell_shaped keyShaped wl ws h1 (tokenWells_shaped t wl htw))
        h w hw

/-- An `output_mapping` update preserves key-shapedness of all keys. -/
lemma updOut_shaped (out : List (String × String)) (w key sep : String)
    (h1 : ∀ kv ∈ out, keyShaped kv.1) (hw : keyShaped w) :
    ∀ kv ∈ updOut out w key sep, keyShaped kv.1 := by
  intro kv hkv
  unfold updOut at hkv
  split at hkv
  · rcases List.mem_map.mp hkv with ⟨p, hp, hpe⟩
    have hfst : kv.1 = p.1 := by
      rw [← hpe]
      split <;> rfl
    rw [hfst]
    exact h1 p hp
  · rcases List.mem_append.mp hkv with h | h
    · exact h1 kv h
    · rw [List.mem_singleton] at h
      subst h
      exact hw

/-- The well loop preserves key-shapedness of the output keys. -/
lemma applyWells_shaped (key sep : String) :
    ∀ (ws : List String) (out : List (String × String)),
      (∀ kv ∈ out, keyShaped kv.1) → (∀ w ∈ ws, keyShaped w) →
      ∀ kv ∈ applyWells key sep ws out, keyShaped kv.1 := by
  intro ws
  induction ws with
  | nil => intro out h1 _ kv hkv; exact h1 kv hkv
  | cons a as ih =>
    intro out h1 h2 kv hkv
    have he : applyWells key sep (a :: as) out =
        applyWells key sep as (updOut out a key sep) := rfl
    rw [he] at hkv
    exact ih (updOut out a key sep)
      (updOut_shaped out a key sep h1 (h2 a (List.mem_cons_self a as)))
      (fun w hw => h2 w (List.mem_cons_of_mem a hw)) kv hkv

/-- The entry loop preserves key-shapedness of the output keys. -/
lemma procEntries_shaped (sep : String) :
    ∀ (es out res : List (String × String)),
      (∀ kv ∈ out, keyShaped kv.1) → procEntries sep es out = .ok res →
      ∀ kv ∈ res, keyShaped kv.1 := by
  intro es
  induction es with
  | nil =>
    intro out res h1 h kv hkv
    simp only [procEntries] at h
    cases h
    exact h1 kv hkv
  | cons e rest ih =>
    obtain ⟨key, val⟩ := e
    intro out res h1 h kv hkv
    simp only [procEntries] at h
    cases hcw : collectWells
        (splitOnChar ',' (val.data.filter (fun c => c ∉ wsChars))) [] with
    | error e2 => rw [hcw] at h; exact Except.noConfusion h
    | ok ws =>
      rw [hcw] at h
      dsimp only at h
      exact ih (applyWells key sep ws out) res
        (applyWells_shaped key sep ws out h1
          (collectWells_shaped _ [] ws (by intro w hw; simp at hw) hcw))
        h kv hkv

/-- The dict loop preserves key-shapedness of the output keys. -/
lemma procDicts_shaped (sep : String) :
    ∀ (ds : List (List (String × String))) (out res : List (String × String)),
      (∀ kv ∈ out, keyShaped kv.1) → procDicts sep ds out = .ok res →
      ∀ kv ∈ res, keyShaped kv.1 := by
  intro ds
  induction ds with
  | nil =>
    intro out res h1 h kv hkv
    simp only [procDicts] at h
    cases h
    exact h1 kv hkv
  | cons d rest ih =>
    intro out res h1 h kv hkv
    simp only [procDicts] at h
    cases hpe : procEntries sep d out with
    | error e => rw [hpe] at h; exact Except.noConfusion h
    | ok out2 =>
      rw [hpe] at h
      dsimp only at h
      exact ih out2 res (procEntries_shaped sep d out out2 h1 hpe) h kv hkv

/-- Claim C10 (amended): whenever `well_mapping` returns successfully, every
key of the returned mapping is one capital row letter `A`–`P` followed by AT
LEAST two decimal digits (the `'{:02d}'` format zero-pads single-digit column
numbers to width two but does not truncate wider ones). -/
theorem well_mapping_key_shape (spec : List (List (String × String)))
    (sep : String) (out : List (String × String))
    (h : well_mapping spec sep = .ok out) :
    ∀ kv ∈ out, ∃ c ds, kv.1.data = c :: ds ∧ c ∈ rowChars ∧
      (∀ d ∈ ds, isDigitChar d = true) ∧ 2 ≤ ds.length := by
  intro kv hkv
  exact procDicts_shaped sep spec [] out (by intro kv2 hkv2; simp at hkv2) h kv hkv

/-- Claim C10 counterexample to the original wording: the specification token
`'A123'` is accepted and produces the key `'A123'`, whose length is 4, while a
key of one capital letter followed by EXACTLY two digits would have length 3.
Column numbers are not bounded, so keys are not always three characters. -/
theorem well_mapping_key_not_two_digits :
    well_mapping [[("c", "A123")]] "." = .ok [("A123", "c")] ∧
      ("A123" : String).data.length = 4 := ⟨rfl, rfl⟩

/-- Claim C10 witness: on the specification token `'A1-A12'` the mapping
returns exactly the keys `'A01'` through `'A12'` (zero-padded), and the
amended shape theorem applies to the key `'A01'` of that concrete output. -/
theorem well_mapping_key_shape_witness :
    well_mapping [[("c", "A1-A12")]] "." =
      .ok [("A01", "c"), ("A02", "c"), ("A03", "c"), ("A04", "c"),
        ("A05", "c"), ("A06", "c"), ("A07", "c"), ("A08", "c"),
        ("A09", "c"), ("A10", "c"), ("A11", "c"), ("A12", "c")] ∧
    (∃ c ds, ("A01" : String).data = c :: ds ∧ c ∈ rowChars ∧
      (∀ d ∈ ds, isDigitChar d = true) ∧ 2 ≤ ds.length) :=
  ⟨rfl,
    well_mapping_key_shape [[("c", "A1-A12")]] "."
      [("A01", "c"), ("A02", "c"), ("A03", "c"), ("A04", "c"),
        ("A05", "c"), ("A06", "c"), ("A07", "c"), ("A08", "c"),
        ("A09", "c"), ("A10", "c"), ("A11", "c"), ("A12", "c")]
      rfl ("A01", "c") (List.mem_cons_self _ _)⟩

/-! ### C2: the move/reversal round trip.  Pure path-rewriting lemmas. -/

/-- Bridge to the propositional prefix order. -/
lemma isPrefixOf_iff {a b : List String} : a.isPrefixOf b = true ↔ a <+: b :=
  List.isPrefixOf_iff_prefix

/-- Two prefixes of one list are comparable. -/
lemma pfx_or_pfx {a b c : List String} (h1 : a <+: c) (h2 : b <+: c) :
    a <+: b ∨ b <+: a :=
  List.prefix_or_prefix_of_prefix h1 h2

lemma isPrefixOf_self (p : FPath) : p.isPrefixOf p = true :=
  isPrefixOf_iff.mpr (List.prefix_refl p)

lemma isPrefixOf_append_self (b t : FPath) : b.isPrefixOf (b ++ t) = true :=
  isPrefixOf_iff.mpr (List.prefix_append b t)

/-- A prefix of `b ++ t` is comparable with `b`. -/
lemma isPrefixOf_append_cases {a b t : FPath}
    (h : a.isPrefixOf (b ++ t) = true) :
    a.isPrefixOf b = true ∨ b.isPrefixOf a = true := by
  rcases pfx_or_pfx (isPrefixOf_iff.mp h)
      (List.prefix_append b t) with h2 | h2
  · exact Or.inl (isPrefixOf_iff.mpr h2)
  · exact Or.inr (isPrefixOf_iff.mpr h2)

lemma incomp_symm {p q : FPath} (h : incomp p q) : incomp q p := ⟨h.2, h.1⟩

/-- Incomparable paths stay unrelated after extending the second. -/
lemma incomp_not_pfx_append {a b : FPath} (t : FPath) (h : incomp a b) :
    a.isPrefixOf (b ++ t) = false := by
  cases hc : a.isPrefixOf (b ++ t) with
  | false => rfl
  | true =>
    rcases isPrefixOf_append_cases hc with h2 | h2
    · rw [h.1] at h2; exact Bool.noConfusion h2
    · rw [h.2] at h2; exact Bool.noConfusion h2

lemma rewritePath_of_pre {s p : FPath} (d : FPath)
    (hs : s.isPrefixOf p = true) :
    rewritePath s d p = d ++ p.drop s.length := by
  simp [rewritePath, hs]

/-- Reassembling a path from a prefix and the dropped tail. -/
lemma append_drop_of_pre {s p : FPath} (hs : s.isPrefixOf p = true) :
    s ++ p.drop s.length = p := by
  obtain ⟨t, ht⟩ := isPrefixOf_iff.mp hs
  subst ht
  rw [List.drop_left]

lemma Entry.withPath_withPath (e : Entry) (q q' : FPath) :
    (e.withPath q).withPath q' = e.withPath q' := by
  cases e <;> rfl

lemma Entry.withPath_self (e : Entry) : e.withPath e.path = e := by
  cases e <;> rfl

lemma map_withPath_self (fs : FS) :
    fs.map (fun e => e.withPath e.path) = fs := by
  induction fs with
  | nil => rfl
  | cons e rest ih => simp [Entry.withPath_self, ih]

lemma existsP_false_iff (fs : FS) (p : FPath) :
    existsP fs p = false ↔ ∀ e ∈ fs, e.path ≠ p := by
  rw [← Bool.not_eq_true, existsP, List.any_eq_true]
  simp

lemma existsP_of_mem {fs : FS} {e : Entry} {p : FPath}
    (he : e ∈ fs) (hp : e.path = p) : existsP fs p = true := by
  rw [existsP, List.any_eq_true]
  exact ⟨e, he, by simp [hp]⟩

/-! Chained path rewriting and the pure effect of a move batch. -/

lemma rwChain_nil (p : FPath) : rwChain [] p = p := rfl

lemma rwChain_cons (m : FPath × FPath) (M : List (FPath × FPath)) (p : FPath) :
    rwChain (m :: M) p = rwChain M (rewritePath m.1 m.2 p) := rfl

/-- A path below none of the sources is left alone by the whole batch. -/
lemma rwChain_untouched {M : List (FPath × FPath)} {q : FPath}
    (h : ∀ m ∈ M, m.1.isPrefixOf q = false) : rwChain M q = q := by
  induction M with
  | nil => rfl
  | cons m rest ih =>
    rw [rwChain_cons, rewritePath_of_not_pre _ (h m (List.mem_cons_self m rest))]
    exact ih (fun m2 hm2 => h m2 (List.mem_cons_of_mem m hm2))

/-- Any path ends up either untouched or inside some destination subtree. -/
lemma rwChain_form (M : List (FPath × FPath)) (p : FPath) :
    rwChain M p = p ∨ ∃ m ∈ M, m.2.isPrefixOf (rwChain M p) = true := by
  induction M generalizing p with
  | nil => exact Or.inl rfl
  | cons m rest ih =>
    rw [rwChain_cons]
    cases hs : m.1.isPrefixOf p with
    | false =>
      rw [rewritePath_of_not_pre _ hs]
      rcases ih p with h | ⟨m2, hm2, h2⟩
      · exact Or.inl h
      · exact Or.inr ⟨m2, List.mem_cons_of_mem m hm2, h2⟩
    | true =>
      rw [rewritePath_of_pre _ hs]
      refine Or.inr ?_
      rcases ih (m.2 ++ p.drop m.1.length) with h | ⟨m2, hm2, h2⟩
      · exact ⟨m, List.mem_cons_self m rest, by
          rw [h]; exact isPrefixOf_append_self _ _⟩
      · exact ⟨m2, List.mem_cons_of_mem m hm2, h2⟩

lemma applyMoves_nil (fs : FS) : applyMoves [] fs = fs := rfl

lemma applyMoves_cons (m : FPath × FPath) (M : List (FPath × FPath)) (fs : FS) :
    applyMoves (m :: M) fs = applyMoves M (replaceOp m.1 m.2 fs) := rfl

lemma applyMoves_append (A B : List (FPath × FPath)) (fs : FS) :
    applyMoves (A ++ B) fs = applyMoves B (applyMoves A fs) :=
  List.foldl_append _ _ _ _

/-- The pure batch effect is a pointwise path rewrite of every entry. -/
lemma applyMoves_eq_map (M : List (FPath × FPath)) (fs : FS) :
    applyMoves M fs = fs.map (fun e => e.withPath (rwChain M e.path)) := by
  induction M generalizing fs with
  | nil => exact (map_withPath_self fs).symm
  | cons m rest ih =>
    rw [applyMoves_cons, ih, replaceOp, List.map_map]
    refine List.map_congr_left (fun e _ => ?_)
    simp only [Function.comp, Entry.path_withPath, Entry.withPath_withPath,
      rwChain_cons]

/-! Success shape of the execution loop. -/

/-- When the move loop finishes without an error it has performed exactly the
pure batch effect. -/
lemma execMoves_ok_shape {M : List (FPath × FPath)} {fs fs' : FS}
    {tr tr' : List Ev} (h : execMoves M fs tr = (fs', tr', none)) :
    fs' = applyMoves M fs := by
  induction M generalizing fs tr with
  | nil =>
    rw [execMoves] at h
    cases h
    rfl
  | cons m rest ih =>
    rw [execMoves] at h
    split at h
    · cases h
    · split at h
      · exact ih h
      · cases h

/-- Executing a concatenation after a successful first half. -/
lemma execMoves_append_ok {A : List (FPath × FPath)} {fs fs1 : FS}
    {tr tr1 : List Ev} (B : List (FPath × FPath))
    (h : execMoves A fs tr = (fs1, tr1, none)) :
    execMoves (A ++ B) fs tr = execMoves B fs1 tr1 := by
  induction A generalizing fs tr with
  | nil =>
    rw [execMoves] at h
    cases h
    rfl
  | cons m rest ih =>
    rw [execMoves] at h
    rw [List.cons_append, execMoves]
    split at h
    · cases h
    · rename_i h2
      split at h
      · rename_i h3
        rw [if_neg h2, if_pos h3]
        exact ih h
      · cases h

/-! The batch-level inversion. -/

lemma movesOK_tail {m : FPath × FPath} {M : List (FPath × FPath)} {fs : FS}
    (H : MovesOK (m :: M) fs) : MovesOK M fs := by
  obtain ⟨ha, hb, he, hps, hpd⟩ := H
  refine ⟨fun m2 hm2 => ha m2 (List.mem_cons_of_mem m hm2),
    fun m2 hm2 => hb m2 (List.mem_cons_of_mem m hm2),
    fun m2 hm2 m3 hm3 =>
      he m2 (List.mem_cons_of_mem m hm2) m3 (List.mem_cons_of_mem m hm3),
    ?_, ?_⟩
  · exact (List.pairwise_cons.mp (by simpa using hps)).2
  · exact (List.pairwise_cons.mp (by simpa using hpd)).2

/-- Head source is incomparable with every tail source. -/
lemma movesOK_head_src {m : FPath × FPath} {M : List (FPath × FPath)} {fs : FS}
    (H : MovesOK (m :: M) fs) : ∀ m2 ∈ M, incomp m.1 m2.1 := by
  intro m2 hm2
  have hps := H.2.2.2.1
  rw [List.map_cons, List.pairwise_cons] at hps
  exact hps.1 m2.1 (List.mem_map_of_mem Prod.fst hm2)

/-- Head destination is incomparable with every tail destination. -/
lemma movesOK_head_dst {m : FPath × FPath} {M : List (FPath × FPath)} {fs : FS}
    (H : MovesOK (m :: M) fs) : ∀ m2 ∈ M, incomp m.2 m2.2 := by
  intro m2 hm2
  have hpd := H.2.2.2.2
  rw [List.map_cons, List.pairwise_cons] at hpd
  exact hpd.1 m2.2 (List.mem_map_of_mem Prod.snd hm2)

/-- The head move sends its source to its destination through the whole batch. -/
lemma rwChain_head_src {s d : FPath} {M : List (FPath × FPath)} {fs : FS}
    (H : MovesOK ((s, d) :: M) fs) : rwChain ((s, d) :: M) s = d := by
  rw [rwChain_cons]
  have h1 : rewritePath s d s = d := by
    rw [rewritePath_of_pre _ (isPrefixOf_self s), List.drop_length,
      List.append_nil]
  rw [h1]
  refine rwChain_untouched (fun m2 hm2 => ?_)
  have he := H.2.2.1 (s, d) (List.mem_cons_self _ _) m2
    (List.mem_cons_of_mem _ hm2)
  exact he.2

/-- After the batch, nothing sits at the head move's source. -/
lemma rwChain_ne_head_src {s d : FPath} {M : List (FPath × FPath)} {fs : FS}
    (H : MovesOK ((s, d) :: M) fs) :
    ∀ e ∈ fs, rwChain ((s, d) :: M) e.path ≠ s := by
  intro e he heq
  have hds : incomp d s :=
    H.2.2.1 (s, d) (List.mem_cons_self _ _) (s, d) (List.mem_cons_self _ _)
  rw [rwChain_cons] at heq
  cases hs : s.isPrefixOf e.path with
  | true =>
    rw [rewritePath_of_pre _ hs] at heq
    have huntouched : rwChain M (d ++ e.path.drop s.length) =
        d ++ e.path.drop s.length := by
      refine rwChain_untouched (fun m2 hm2 => ?_)
      have he2 := H.2.2.1 (s, d) (List.mem_cons_self _ _) m2
        (List.mem_cons_of_mem _ hm2)
      exact incomp_not_pfx_append _ (incomp_symm he2)
    rw [huntouched] at heq
    have : d.isPrefixOf s = true := by
      rw [← heq]; exact isPrefixOf_append_self _ _
    rw [hds.1] at this
    exact Bool.noConfusion this
  | false =>
    rw [rewritePath_of_not_pre _ hs] at heq
    rcases rwChain_form M (rewritePath s d e.path) with hform | ⟨m2, hm2, h2⟩
    · rw [rewritePath_of_not_pre _ hs] at hform
      rw [hform] at heq
      rw [heq, isPrefixOf_self s] at hs
      exact Bool.noConfusion hs
    · rw [rewritePath_of_not_pre _ hs, heq] at h2
      have he2 := H.2.2.1 m2 (List.mem_cons_of_mem _ hm2) (s, d)
        (List.mem_cons_self _ _)
      rw [he2.1] at h2
      exact Bool.noConfusion h2

/-- Pointwise inverse/commutation law: undoing the head move after the tail
batch equals running the tail batch on the original path. -/
lemma rw_inv_comm_path {s d : FPath} {M : List (FPath × FPath)} (p : FPath)
    (hbp : d.isPrefixOf p = false)
    (hsrc : ∀ m ∈ M, incomp s m.1)
    (hdst : ∀ m ∈ M, incomp d m.2)
    (hds : ∀ m ∈ M, incomp d m.1) :
    rewritePath d s (rwChain M (rewritePath s d p)) = rwChain M p := by
  cases hs : s.isPrefixOf p with
  | true =>
    rw [rewritePath_of_pre _ hs]
    have huntouched : rwChain M (d ++ p.drop s.length) =
        d ++ p.drop s.length :=
      rwChain_untouched (fun m2 hm2 =>
        incomp_not_pfx_append _ (incomp_symm (hds m2 hm2)))
    rw [huntouched, rewritePath_of_pre _ (isPrefixOf_append_self _ _),
      List.drop_left, append_drop_of_pre hs]
    refine (rwChain_untouched (fun m2 hm2 => ?_)).symm
    cases hc : m2.1.isPrefixOf p with
    | false => rfl
    | true =>
      obtain ⟨t, ht⟩ := isPrefixOf_iff.mp hs
      rw [← ht] at hc
      rcases isPrefixOf_append_cases hc with h2 | h2
      · rw [(hsrc m2 hm2).2] at h2; exact Bool.noConfusion h2
      · rw [(hsrc m2 hm2).1] at h2; exact Bool.noConfusion h2
  | false =>
    rw [rewritePath_of_not_pre _ hs]
    refine rewritePath_of_not_pre _ ?_
    cases hc : d.isPrefixOf (rwChain M p) with
    | false => rfl
    | true =>
      rcases rwChain_form M p with hform | ⟨m2, hm2, h2⟩
      · rw [hform] at hc
        rw [hbp] at hc
        exact Bool.noConfusion hc
      · rcases pfx_or_pfx (isPrefixOf_iff.mp hc) (isPrefixOf_iff.mp h2)
            with h3 | h3
        · have := (hdst m2 hm2).1
          rw [isPrefixOf_iff.mpr h3] at this
          exact Bool.noConfusion this
        · have := (hdst m2 hm2).2
          rw [isPrefixOf_iff.mpr h3] at this
          exact Bool.noConfusion this

/-- Filesystem-level version of the inverse/commutation law. -/
lemma replaceOp_inv_comm {s d : FPath} {M : List (FPath × FPath)} {fs : FS}
    (H : MovesOK ((s, d) :: M) fs) :
    replaceOp d s (applyMoves M (replaceOp s d fs)) = applyMoves M fs := by
  have hmapped : applyMoves M (replaceOp s d fs) =
      fs.map (fun e => e.withPath (rwChain M (rewritePath s d e.path))) := by
    rw [applyMoves_eq_map, replaceOp, List.map_map]
    refine List.map_congr_left (fun e _ => ?_)
    simp only [Function.comp, Entry.path_withPath, Entry.withPath_withPath]
  rw [hmapped, applyMoves_eq_map, replaceOp, List.map_map]
  refine List.map_congr_left (fun e he => ?_)
  simp only [Function.comp, Entry.path_withPath, Entry.withPath_withPath]
  have hbp : d.isPrefixOf e.path = false :=
    H.2.1 (s, d) (List.mem_cons_self _ _) e he
  rw [rw_inv_comm_path e.path hbp (movesOK_head_src H)
    (movesOK_head_dst H)
    (fun m2 hm2 => H.2.2.1 (s, d) (List.mem_cons_self _ _) m2
      (List.mem_cons_of_mem _ hm2))]

/-- **Batch inversion**: running the swapped batch on the batch's own output
restores the input filesystem, move by move, with no error. -/
lemma execMoves_inv (M : List (FPath × FPath)) :
    ∀ (fs : FS) (tr : List Ev), MovesOK M fs →
      execMoves (M.map Prod.swap) (applyMoves M fs) tr =
        (fs, tr ++ M.map (fun m => Ev.movedEv m.2 m.1), none) := by
  induction M with
  | nil => intro fs tr _; simp [applyMoves_nil, execMoves]
  | cons m rest ih =>
    intro fs tr H
    obtain ⟨s, d⟩ := m
    rw [List.map_cons, applyMoves_cons]
    have hfold : applyMoves rest (replaceOp s d fs) =
        applyMoves ((s, d) :: rest) fs := rfl
    have hnots : existsP (applyMoves rest (replaceOp s d fs)) s = false := by
      rw [existsP_false_iff, hfold]
      rw [applyMoves_eq_map]
      intro e' he'
      rcases List.mem_map.mp he' with ⟨e, he, hee⟩
      rw [← hee, Entry.path_withPath]
      exact rwChain_ne_head_src H e he
    have hd : existsP (applyMoves rest (replaceOp s d fs)) d = true := by
      obtain ⟨e0, he0, he0p⟩ := by
        have := H.1 (s, d) (List.mem_cons_self _ _)
        rw [existsP, List.any_eq_true] at this
        simpa using this
      rw [hfold, applyMoves_eq_map]
      refine existsP_of_mem (List.mem_map_of_mem _ he0) ?_
      rw [Entry.path_withPath, he0p]
      exact rwChain_head_src H
    rw [execMoves]
    simp only [Prod.swap_prod_mk]
    rw [if_neg (by rw [hnots]; exact Bool.noConfusion), if_pos hd]
    rw [replaceOp_inv_comm H]
    rw [ih fs (tr ++ [Ev.movedEv d s]) (movesOK_tail H)]
    simp

/-! Shape of the directory-creation phase: created directories are appended
entries, recorded in creation order. -/

lemma mkdirOp_ok_shape {fs fs2 : FS} {d : FPath}
    (h : mkdirOp fs d = .ok fs2) : fs2 = fs ++ [Entry.dir d] := by
  unfold mkdirOp at h
  split at h
  · exact Except.noConfusion h
  · split at h
    · cases h; rfl
    · exact Except.noConfusion h

lemma rmkdirFuel_shape :
    ∀ (fuel : Nat) (dest : FPath) (fs : FS) (tr : List Ev) (nds : List FPath)
      (fs2 : FS) (tr2 : List Ev) (nds2 : List FPath),
      rmkdirFuel fuel dest fs tr nds = .ok (fs2, tr2, nds2) →
      ∃ delta, fs2 = fs ++ delta.map Entry.dir ∧ nds2 = nds ++ delta := by
  intro fuel
  induction fuel with
  | zero =>
    intro dest fs tr nds fs2 tr2 nds2 h
    rw [rmkdirFuel] at h
    exact Except.noConfusion h
  | succ f ih =>
    intro dest fs tr nds fs2 tr2 nds2 h
    rw [rmkdirFuel] at h
    split at h
    · cases hmk : mkdirOp fs dest with
      | error e => rw [hmk] at h; exact Except.noConfusion h
      | ok fsx =>
        rw [hmk] at h
        dsimp only at h
        cases h
        exact ⟨[dest], by simpa using mkdirOp_ok_shape hmk, rfl⟩
    · cases hrec : rmkdirFuel f dest.dropLast fs tr nds with
      | error e => rw [hrec] at h; exact Except.noConfusion h
      | ok trip =>
        obtain ⟨fsa, tra, ndsa⟩ := trip
        rw [hrec] at h
        dsimp only at h
        cases hmk : mkdirOp fsa dest with
        | error e => rw [hmk] at h; exact Except.noConfusion h
        | ok fsb =>
          rw [hmk] at h
          dsimp only at h
          cases h
          obtain ⟨delta, hfs, hnds⟩ := ih dest.dropLast fs tr nds fsa tra ndsa hrec
          refine ⟨delta ++ [dest], ?_, ?_⟩
          · rw [mkdirOp_ok_shape hmk, hfs]; simp
          · rw [hnds]; simp

lemma rmkdir_shape {dest : FPath} {fs : FS} {tr : List Ev} {nds : List FPath}
    {fs2 : FS} {tr2 : List Ev} {nds2 : List FPath}
    (h : rmkdir dest fs tr nds = .ok (fs2, tr2, nds2)) :
    ∃ delta, fs2 = fs ++ delta.map Entry.dir ∧ nds2 = nds ++ delta :=
  rmkdirFuel_shape _ _ _ _ _ _ _ _ h

lemma planLoop_shape (it : ImgType) (groupby : List String) (path : FPath)
    (wellMap : String → Option String) (xm : XYMaps) :
    ∀ (tifs : List FPath) (fs : FS) (tr : List Ev) (nds : List FPath)
      (recl : List (FPath × FPath)) (fs2 : FS) (tr2 : List Ev)
      (nds2 : List FPath) (recl2 : List (FPath × FPath)),
      planLoop it groupby path wellMap xm tifs fs tr nds recl =
        (fs2, tr2, nds2, recl2, none) →
      ∃ delta, fs2 = fs ++ delta.map Entry.dir ∧ nds2 = nds ++ delta := by
  intro tifs
  induction tifs with
  | nil =>
    intro fs tr nds recl fs2 tr2 nds2 recl2 h
    rw [planLoop] at h
    cases h
    exact ⟨[], by simp, by simp⟩
  | cons f rest ih =>
    intro fs tr nds recl fs2 tr2 nds2 recl2 h
    rw [planLoop] at h
    cases hsn : searchName it (f.getLastD "") with
    | none => rw [hsn] at h; cases h
    | some g =>
      rw [hsn] at h
      dsimp only at h
      cases hw : xm.toWell ("XY" ++ g.xy) with
      | none => rw [hw] at h; cases h
      | some wellID =>
        rw [hw] at h
        dsimp only at h
        cases hu : xm.toWellUnique ("XY" ++ g.xy) with
        | none => rw [hu] at h; cases h
        | some uniq =>
          rw [hu] at h
          dsimp only at h
          cases hm : wellMap wellID with
          | none => rw [hm] at h; cases h
          | some cond =>
            rw [hm] at h
            dsimp only at h
            cases hg : getGroupbyPath path groupby it cond uniq g with
            | none => rw [hg] at h; cases h
            | some destDir =>
              rw [hg] at h
              dsimp only at h
              split at h
              · cases h
              · rename_i x fsa tra ndsa heq
                split at heq
                · cases heq
                  exact ih fs tr nds _ fs2 tr2 nds2 recl2 h
                · obtain ⟨delta2, hfs2, hnds2⟩ :=
                    ih fsa tra ndsa _ fs2 tr2 nds2 recl2 h
                  obtain ⟨delta1, hfs1, hnds1⟩ := rmkdir_shape heq
                  refine ⟨delta1 ++ delta2, ?_, ?_⟩
                  · rw [hfs2, hfs1]; simp
                  · rw [hnds2, hnds1]; simp

/-! Lookup helpers. -/

lemma lookupFile_some {fs : FS} {p : FPath} {dat : FileData}
    (h : lookupFile fs p = some dat) : Entry.file p dat ∈ fs := by
  obtain ⟨e, he, hfe⟩ := List.exists_of_findSome?_eq_some h
  match e, hfe with
  | .file q d0, hfe =>
    dsimp only at hfe
    split at hfe
    · rename_i hq
      cases hfe
      rw [hq] at he
      exact he
    · exact Option.noConfusion hfe

lemma existsP_of_lookup {fs : FS} {p : FPath} {dat : FileData}
    (h : lookupFile fs p = some dat) : existsP fs p = true :=
  existsP_of_mem (lookupFile_some h) rfl

/-! The length-sorted directory removal. -/

lemma pathStrLen_append (a b : FPath) :
    pathStrLen (a ++ b) = pathStrLen a + pathStrLen b := by
  simp [pathStrLen, List.sum_append]
  omega

lemma pathStrLen_lt_of_longer {d p : FPath} (h : d.isPrefixOf p = true)
    (hlen : d.length < p.length) : pathStrLen d < pathStrLen p := by
  obtain ⟨t, ht⟩ := isPrefixOf_iff.mp h
  subst ht
  rw [pathStrLen_append]
  rcases t with _ | ⟨x, t'⟩
  · simp at hlen
  · have : 1 ≤ pathStrLen (x :: t') := by
      simp [pathStrLen]
      omega
    omega

lemma insertDescLen_perm (a : FPath) (l : List FPath) :
    (insertDescLen a l).Perm (a :: l) := by
  induction l with
  | nil => exact List.Perm.refl _
  | cons b rest ih =>
    rw [insertDescLen]
    split
    · exact List.Perm.refl _
    · exact (ih.cons b).trans (List.Perm.swap a b rest)

lemma sortNewDirs_perm (D : List FPath) : (sortNewDirs D).Perm D := by
  induction D with
  | nil => exact List.Perm.refl _
  | cons a rest ih =>
    rw [sortNewDirs]
    exact (insertDescLen_perm a (sortNewDirs rest)).trans (ih.cons a)

lemma insertDescLen_sorted {l : List FPath} (a : FPath)
    (h : List.Pairwise (fun x y => pathStrLen y ≤ pathStrLen x) l) :
    List.Pairwise (fun x y => pathStrLen y ≤ pathStrLen x)
      (insertDescLen a l) := by
  induction l with
  | nil => simp [insertDescLen]
  | cons b rest ih =>
    rw [insertDescLen]
    obtain ⟨hb, hrest⟩ := List.pairwise_cons.mp h
    split
    · rename_i hba
      refine List.pairwise_cons.mpr ⟨?_, h⟩
      intro x hx
      rcases List.mem_cons.mp hx with hx | hx
      · subst hx; exact hba
      · exact le_trans (hb x hx) hba
    · rename_i hba
      refine List.pairwise_cons.mpr ⟨?_, ih hrest⟩
      intro x hx
      rcases List.mem_cons.mp ((insertDescLen_perm a rest).mem_iff.mp hx)
          with hx2 | hx2
      · subst hx2; omega
      · exact hb x hx2

lemma sortNewDirs_sorted (D : List FPath) :
    List.Pairwise (fun x y => pathStrLen y ≤ pathStrLen x) (sortNewDirs D) := by
  induction D with
  | nil => simp [sortNewDirs]
  | cons a rest ih =>
    rw [sortNewDirs]
    exact insertDescLen_sorted a ih

/-- **Directory removal**: removing a children-first sorted list of fresh
directory entries from the middle of the tree succeeds and leaves exactly the
surrounding entries. -/
lemma rmdirLoop_clears :
    ∀ (L Drem : List FPath) (A C : FS) (tr : List Ev),
      Drem.Perm L →
      List.Pairwise (fun x y => pathStrLen y ≤ pathStrLen x) L →
      L.Nodup →
      (∀ d ∈ L, ∀ e ∈ A ++ C, d.isPrefixOf e.path = false) →
      rmdirLoop L (A ++ Drem.map Entry.dir ++ C) tr =
        (A ++ C, tr ++ L.map Ev.removedDir, none) := by
  intro L
  induction L with
  | nil =>
    intro Drem A C tr hperm _ _ _
    rw [hperm.eq_nil]
    simp [rmdirLoop]
  | cons d L' ih =>
    intro Drem A C tr hperm hsort hnodup hfresh
    have hd_mem : d ∈ Drem := hperm.mem_iff.mpr (List.mem_cons_self d L')
    have hdirmem : Entry.dir d ∈ A ++ Drem.map Entry.dir ++ C := by
      refine List.mem_append.mpr (Or.inl ?_)
      exact List.mem_append.mpr (Or.inr (List.mem_map_of_mem Entry.dir hd_mem))
    have hfresh_head := hfresh d (List.mem_cons_self d L')
    rw [rmdirLoop]
    rw [if_neg (fun hc => hc (existsP_of_mem hdirmem rfl))]
    have hempty : (childEntries (A ++ Drem.map Entry.dir ++ C) d).isEmpty = true := by
      rw [List.isEmpty_iff, childEntries, List.filter_eq_nil_iff]
      intro e hemem
      simp only [decide_eq_true_eq, not_and]
      intro hlen hpre
      rcases List.mem_append.mp hemem with hAC | hC
      · rcases List.mem_append.mp hAC with hA | hMid
        · rw [hfresh_head e (List.mem_append.mpr (Or.inl hA))] at hpre
          exact Bool.noConfusion hpre
        · rcases List.mem_map.mp hMid with ⟨d', hd', hde⟩
          rw [← hde] at hlen hpre
          dsimp only [Entry.path] at hlen hpre
          have hlt : pathStrLen d < pathStrLen d' :=
            pathStrLen_lt_of_longer hpre (by omega)
          rcases List.mem_cons.mp (hperm.mem_iff.mp hd') with hdd | hdd
          · subst hdd; omega
          · have := (List.pairwise_cons.mp hsort).1 d' hdd
            omega
      · rw [hfresh_head e (List.mem_append.mpr (Or.inr hC))] at hpre
        exact Bool.noConfusion hpre
    rw [if_pos hempty]
    have hisdir : isDirP (A ++ Drem.map Entry.dir ++ C) d = true := by
      rw [isDirP, List.any_eq_true]
      exact ⟨Entry.dir d, hdirmem, by simp [Entry.path, Entry.isDir]⟩
    rw [if_pos hisdir]
    have hremove : removeEntryAt (A ++ Drem.map Entry.dir ++ C) d =
        A ++ (Drem.filter (fun x => x ≠ d)).map Entry.dir ++ C := by
      rw [removeEntryAt, List.filter_append, List.filter_append]
      have hA : A.filter (fun e => e.path ≠ d) = A := by
        rw [List.filter_eq_self]
        intro e he
        simp only [ne_eq, decide_eq_true_eq]
        intro hed
        have := hfresh_head e (List.mem_append.mpr (Or.inl he))
        rw [hed, isPrefixOf_self d] at this
        exact Bool.noConfusion this
      have hC : C.filter (fun e => e.path ≠ d) = C := by
        rw [List.filter_eq_self]
        intro e he
        simp only [ne_eq, decide_eq_true_eq]
        intro hed
        have := hfresh_head e (List.mem_append.mpr (Or.inr he))
        rw [hed, isPrefixOf_self d] at this
        exact Bool.noConfusion this
      have hMid : (Drem.map Entry.dir).filter (fun e => e.path ≠ d) =
          (Drem.filter (fun x => x ≠ d)).map Entry.dir := by
        rw [List.filter_map]
        congr 1
      rw [hA, hC, hMid]
    rw [hremove]
    have hdnotin : d ∉ L' := (List.nodup_cons.mp hnodup).1
    have hperm' : (Drem.filter (fun x => x ≠ d)).Perm L' := by
      have h1 := hperm.filter (fun x => x ≠ d)
      have h2 : (d :: L').filter (fun x => x ≠ d) = L' := by
        rw [List.filter_cons, if_neg (by simp)]
        refine List.filter_eq_self.mpr (fun x hx => ?_)
        simp only [ne_eq, decide_eq_true_eq]
        intro hxd
        exact hdnotin (hxd ▸ hx)
      rw [h2] at h1
      exact h1
    rw [ih (Drem.filter (fun x => x ≠ d)) A C (tr ++ [Ev.removedDir d]) hperm'
      (List.pairwise_cons.mp hsort).2 (List.nodup_cons.mp hnodup).2
      (fun d2 hd2 => hfresh d2 (List.mem_cons_of_mem d hd2))]
    simp

/-! Assembling the round trip. -/

/-- A re-pathed entry that is a file was a file with the same contents. -/
lemma withPath_eq_file {e : Entry} {q p' : FPath} {dat : FileData}
    (h : e.withPath q = .file p' dat) : e = .file e.path dat ∧ q = p' := by
  cases e with
  | dir p0 => exact Entry.noConfusion h
  | file p0 d0 =>
    rw [Entry.withPath] at h
    injection h with h1 h2
    subst h1 h2
    exact ⟨rfl, rfl⟩

/-- Retiring the record: renaming the only remaining foreign file. -/
lemma renameOp_retire (fs0 : FS) (rp retired : FPath) (dat : FileData)
    (hnorec : ∀ e ∈ fs0, rp.isPrefixOf e.path = false)
    (hretired : ∀ e ∈ fs0, retired.isPrefixOf e.path = false)
    (hne : rp ≠ retired) :
    renameOp (fs0 ++ [.file rp dat]) rp retired =
      fs0 ++ [.file retired dat] := by
  unfold renameOp
  have hrm : removeEntryAt (fs0 ++ [.file rp dat]) retired =
      fs0 ++ [.file rp dat] := by
    rw [removeEntryAt, List.filter_eq_self]
    intro e he
    simp only [ne_eq, decide_eq_true_eq]
    rcases List.mem_append.mp he with hA | hB
    · intro hed
      have := hretired e hA
      rw [hed, isPrefixOf_self retired] at this
      exact Bool.noConfusion this
    · rw [List.mem_singleton] at hB
      subst hB
      exact fun hc => hne hc
  rw [hrm, replaceOp, List.map_append]
  congr 1
  · have hpt : ∀ e ∈ fs0, e.withPath (rewritePath rp retired e.path) = e :=
      fun e he => by
        rw [rewritePath_of_not_pre _ (hnorec e he), Entry.withPath_self]
    rw [List.map_congr_left hpt]
    exact List.map_id fs0
  · simp only [List.map_cons, List.map_nil, Entry.path]
    rw [rewritePath_of_pre _ (isPrefixOf_self rp), List.drop_length,
      List.append_nil]
    rfl

/-- Claim C2 (amended): the round trip restores the original tree *plus the
retired record*.  For every successful `moveFiles` run on a tree `fs0` whose
persisted record satisfies the batch-independence conditions of a valid
transaction (`MovesOK` for both move lists, fresh pairwise-distinct new
directories, no pre-existing record or retired-record path), `revMoveFiles`
succeeds and its final filesystem is exactly `fs0` with one extra entry: the
record document renamed to `{record_time}_rev_record.json`.  In particular
every original file (content and relative position) is restored and nothing
outside the record's lists is touched — but the tree is NOT restored *exactly*
as the claim states, because the retired record file remains. -/
theorem moveFiles_round_trip (path : FPath) (wm : String → Option String)
    (now : String) (fs0 : FS) (gb : List String) (rr : RunResult)
    (r : MoveRecord)
    (hrun : moveFiles path wm now fs0 gb = rr)
    (hok : rr.out = .ok)
    (hrec : lookupFile rr.fs (path ++ ["record.json"]) = some (.recData r))
    (hclean : ∀ e ∈ fs0, isRecData e = false)
    (hnorec : ∀ e ∈ fs0, (path ++ ["record.json"]).isPrefixOf e.path = false)
    (hR : MovesOK r.record (recState path fs0 r))
    (hU : MovesOK r.unmoved_list (applyMoves r.record (recState path fs0 r)))
    (hD : ∀ d ∈ r.new_dirs, (∀ e ∈ fs0, d.isPrefixOf e.path = false) ∧
      d.isPrefixOf (path ++ ["record.json"]) = false)
    (hDnodup : r.new_dirs.Nodup)
    (hretired : ∀ e ∈ fs0,
      (path ++ [now ++ "_rev_" ++ "record.json"]).isPrefixOf e.path = false) :
    ∃ tr, revMoveFiles path rr.fs =
      ⟨fs0 ++ [.file (path ++ [now ++ "_rev_" ++ "record.json"]) (.recData r)],
        tr, .ok⟩ := by
  unfold moveFiles at hrun
  cases hM : matchImgType fs0 path with
  | error e =>
    rw [hM] at hrun
    rw [← hrun] at hok
    simp at hok
  | ok it =>
    rw [hM] at hrun
    dsimp only at hrun
    cases hV : validateGroupby gb it with
    | some e =>
      rw [hV] at hrun
      rw [← hrun] at hok
      simp at hok
    | none =>
      rw [hV] at hrun
      dsimp only at hrun
      cases hT : existsP fs0 (path ++ ["record.txt"]) with
      | true =>
        rw [hT] at hrun
        simp only [if_true] at hrun
        rw [← hrun] at hok
        simp at hok
      | false =>
        rw [hT] at hrun
        simp only [Bool.false_eq_true, if_false] at hrun
        simp only [moveFilesBody] at hrun
        cases hmk : mkdirOp fs0 (path ++ ["unmoved"]) with
        | error e =>
          rw [hmk] at hrun
          rw [← hrun] at hok
          simp at hok
        | ok fs1 =>
          rw [hmk] at hrun
          dsimp only at hrun
          rcases hP : planLoop it gb path wm (mapXYtoWell fs1 path)
              (rglobTifs fs1 path) fs1 [Ev.mkdirEv (path ++ ["unmoved"])]
              [path ++ ["unmoved"]] [] with ⟨fs2, tr2, nds2, recl, err⟩
          cases err with
          | some e =>
            rw [hP] at hrun
            dsimp only at hrun
            rw [← hrun] at hok
            simp at hok
          | none =>
            rw [hP] at hrun
            dsimp only at hrun
            cases hW : writeRecordOp fs2 path
                ⟨now, ((childNames fs0 path).filter (fun n => n ≠ ".DS_Store")).map
                  (fun n => (path ++ [n], path ++ ["unmoved"] ++ [n])), recl, nds2⟩ with
            | error e =>
              rw [hW] at hrun
              rw [← hrun] at hok
              simp at hok
            | ok fs3 =>
              rw [hW] at hrun
              dsimp only at hrun
              rw [execPhase] at hrun
              rcases hE1 : execMoves recl fs3
                  (tr2 ++ [Ev.wroteRecord (path ++ ["record.json"])])
                  with ⟨fs4, tr4, e4⟩
              cases e4 with
              | some e =>
                rw [hE1] at hrun
                rw [← hrun] at hok
                simp at hok
              | none =>
                rw [hE1] at hrun
                dsimp only at hrun
                rcases hE2 : execMoves (((childNames fs0 path).filter
                    (fun n => n ≠ ".DS_Store")).map
                    (fun n => (path ++ [n], path ++ ["unmoved"] ++ [n]))) fs4 tr4
                    with ⟨fs5, tr5, e5⟩
                cases e5 with
                | some e =>
                  rw [hE2] at hrun
                  rw [← hrun] at hok
                  simp at hok
                | none =>
                  rw [hE2] at hrun
                  dsimp only at hrun
                  subst hrun
                  dsimp only at hrec ⊢
                  -- Shapes of the planning phase.
                  have hfs1 : fs1 = fs0 ++ [Entry.dir (path ++ ["unmoved"])] :=
                    mkdirOp_ok_shape hmk
                  obtain ⟨delta, hfs2, hnds2⟩ :=
                    planLoop_shape it gb path wm (mapXYtoWell fs1 path) _ _ _ _ _
                      fs2 tr2 nds2 recl hP
                  have hfs2' : fs2 = fs0 ++ nds2.map Entry.dir := by
                    rw [hfs2, hfs1, hnds2]
                    simp
                  -- The record write appended the document to an untouched tree.
                  have hW' := hW
                  rw [writeRecordOp] at hW'
                  split at hW'
                  · exact Except.noConfusion hW'
                  · rename_i hdirp
                    have hW'' : fs3 = removeEntryAt fs2 (path ++ ["record.json"]) ++
                        [Entry.file (path ++ ["record.json"])
                          (.recData ⟨now, ((childNames fs0 path).filter
                            (fun n => n ≠ ".DS_Store")).map
                            (fun n => (path ++ [n], path ++ ["unmoved"] ++ [n])),
                            recl, nds2⟩)] := by
                      cases hW'
                      rfl
                    have hrm_triv : removeEntryAt fs2 (path ++ ["record.json"]) = fs2 := by
                      rw [removeEntryAt, List.filter_eq_self]
                      intro e he
                      simp only [ne_eq, decide_eq_true_eq]
                      intro hep
                      have he2 := he
                      rw [hfs2'] at he2
                      rcases List.mem_append.mp he2 with hA | hB
                      · have := hnorec e hA
                        rw [hep, isPrefixOf_self] at this
                        exact Bool.noConfusion this
                      · rcases List.mem_map.mp hB with ⟨dd, hdd, hde⟩
                        apply hdirp
                        rw [isDirP, List.any_eq_true]
                        refine ⟨e, he, ?_⟩
                        rw [← hde] at hep ⊢
                        simp only [Entry.path] at hep
                        simp [Entry.path, Entry.isDir, hep]
                    rw [hrm_triv, hfs2'] at hW''
                    -- Pure shapes of the executed moves.
                    have hfs4 : fs4 = applyMoves recl fs3 := execMoves_ok_shape hE1
                    have hfs5 : fs5 = applyMoves (((childNames fs0 path).filter
                        (fun n => n ≠ ".DS_Store")).map
                        (fun n => (path ++ [n], path ++ ["unmoved"] ++ [n]))) fs4 :=
                      execMoves_ok_shape hE2
                    -- Identify the record named by `hrec` with the written one.
                    have hfs5map : fs5 = fs3.map (fun e =>
                        e.withPath (rwChain (recl ++ ((childNames fs0 path).filter
                          (fun n => n ≠ ".DS_Store")).map
                          (fun n => (path ++ [n], path ++ ["unmoved"] ++ [n]))) e.path)) := by
                      rw [hfs5, hfs4, ← applyMoves_append, applyMoves_eq_map]
                    have hmem := lookupFile_some hrec
                    rw [hfs5map] at hmem
                    rcases List.mem_map.mp hmem with ⟨e, he, hee⟩
                    obtain ⟨hef, _⟩ := withPath_eq_file hee
                    rw [hW''] at he
                    have hr_eq : r = ⟨now, ((childNames fs0 path).filter
                        (fun n => n ≠ ".DS_Store")).map
                        (fun n => (path ++ [n], path ++ ["unmoved"] ++ [n])),
                        recl, nds2⟩ := by
                      rcases List.mem_append.mp he with hA | hB
                      · rcases List.mem_append.mp hA with hA0 | hAd
                        · have hcl := hclean e hA0
                          rw [hef] at hcl
                          simp [isRecData] at hcl
                        · rcases List.mem_map.mp hAd with ⟨dd, _, hde⟩
                          rw [hef] at hde
                          exact Entry.noConfusion hde
                      · rw [List.mem_singleton] at hB
                        rw [hef] at hB
                        injection hB with _ hdat
                        injection hdat with hfd
                    -- Restate the canonical transaction state.
                    have hfs3rec : fs3 = recState path fs0 r := by
                      rw [hW'', recState, hr_eq]
                    -- Run the reversal.
                    simp only [revMoveFiles]
                    rw [if_neg (fun hc => hc (existsP_of_lookup hrec))]
                    rw [hrec]
                    dsimp only
                    have hfs5' : fs5 = applyMoves r.unmoved_list
                        (applyMoves r.record (recState path fs0 r)) := by
                      rw [hfs5, hfs4, hfs3rec, hr_eq]
                    have e1 := execMoves_inv r.unmoved_list
                      (applyMoves r.record (recState path fs0 r)) [] hU
                    rw [← hfs5'] at e1
                    have e2 := execMoves_append_ok (r.record.map Prod.swap) e1
                    have e3 := execMoves_inv r.record (recState path fs0 r)
                      ([] ++ r.unmoved_list.map (fun m => Ev.movedEv m.2 m.1)) hR
                    rw [← List.map_append] at e2
                    rw [e2.trans e3]
                    dsimp only
                    -- Remove the created directories.
                    have hrmdir := rmdirLoop_clears (sortNewDirs r.new_dirs)
                      r.new_dirs fs0
                      [Entry.file (path ++ ["record.json"]) (.recData r)]
                      (([] ++ r.unmoved_list.map (fun m => Ev.movedEv m.2 m.1)) ++
                        r.record.map (fun m => Ev.movedEv m.2 m.1))
                      (sortNewDirs_perm r.new_dirs).symm
                      (sortNewDirs_sorted r.new_dirs)
                      ((sortNewDirs_perm r.new_dirs).nodup_iff.mpr hDnodup)
                      (by
                        intro d hd e' he'
                        have hdD := (sortNewDirs_perm r.new_dirs).mem_iff.mp hd
                        rcases List.mem_append.mp he' with hA | hB
                        · exact (hD d hdD).1 e' hA
                        · rw [List.mem_singleton] at hB
                          subst hB
                          exact (hD d hdD).2)
                    have hrs : recState path fs0 r = fs0 ++
                        r.new_dirs.map Entry.dir ++
                        [Entry.file (path ++ ["record.json"]) (.recData r)] := rfl
                    rw [hrs, hrmdir]
                    dsimp only
                    rw [if_neg (fun hc => hc (existsP_of_mem
                      (List.mem_append.mpr (Or.inr (List.mem_singleton.mpr rfl)))
                      rfl))]
                    have hrt : r.record_time = now := by rw [hr_eq]
                    have hne : (path ++ ["record.json"]) ≠
                        (path ++ [now ++ "_rev_" ++ "record.json"]) := by
                      intro hcontra
                      have := List.append_cancel_left hcontra
                      injection this with h1 _
                      have hlen := congrArg String.length h1
                      rw [String.length_append, String.length_append] at hlen
                      have l1 : ("record.json").length = 11 := rfl
                      have l2 : ("_rev_").length = 5 := rfl
                      omega
                    rw [hrt, renameOp_retire fs0 (path ++ ["record.json"])
                      (path ++ [now ++ "_rev_" ++ "record.json"]) (.recData r)
                      hnorec hretired hne]
                    exact ⟨_, rfl⟩

/-- Claim C2 counterexample to the original wording: on the concrete
successful transaction over `sampleFS`, the reversal succeeds but the final
tree is NOT the original tree exactly — it contains the retired record file
`TS_rev_record.json`, a path that did not exist in the original tree (and
which the reversal itself created by touching the record, a file outside the
record's two move lists). -/
theorem round_trip_not_exact :
    (revMoveFiles ["g"] (moveFiles ["g"] sampleWM "TS" sampleFS ["cond"]).fs).out
        = .ok ∧
    existsP (revMoveFiles ["g"]
        (moveFiles ["g"] sampleWM "TS" sampleFS ["cond"]).fs).fs
      (["g"] ++ ["TS" ++ "_rev_" ++ "record.json"]) = true ∧
    existsP sampleFS (["g"] ++ ["TS" ++ "_rev_" ++ "record.json"]) = false := by
  decide

/-- Claim C2 witness: the amended round-trip theorem applied to the concrete
run `moveFiles ["g"] sampleWM "TS" sampleFS ["cond"]`, whose persisted record
is `sampleRec`; the reversal returns exactly `sampleFS` plus the retired
record. -/
theorem moveFiles_round_trip_witness :
    ∃ tr, revMoveFiles ["g"] (moveFiles ["g"] sampleWM "TS" sampleFS ["cond"]).fs =
      ⟨sampleFS ++ [.file (["g"] ++ ["TS" ++ "_rev_" ++ "record.json"])
        (.recData sampleRec)], tr, .ok⟩ :=
  moveFiles_round_trip ["g"] sampleWM "TS" sampleFS ["cond"]
    (moveFiles ["g"] sampleWM "TS" sampleFS ["cond"]) sampleRec
    rfl (by decide) (by decide) (by decide) (by decide) (by decide) (by decide)
    (by decide) (by decide) (by decide)

end Kfm
